import Mathlib

set_option maxRecDepth 100000
set_option maxHeartbeats 4000000

/-!
# Verification of the veritas-chain ledger engine

A shallow embedding of the Go sources under `src/blockchain/` (merkle.go,
block.go, blockchain.go, proof.go) together with the parts of
`src/identity/` they use, and proofs of the frozen specification claims.

Conventions of the embedding:
* Go `[]byte` and `string` values are `List Nat` of byte values (Go strings
  are byte strings; all concrete inputs used here are ASCII).
* Go `int`/`int64` are `Int`; where Go arithmetic wraps at 64 bits the
  reduction `% 2^64` is written out explicitly.
* `crypto/sha256` is implemented concretely (FIPS 180-4), so every
  definition is executable and theorems can be checked on concrete inputs.
* `log.Panic` and fallible operations are modelled with `Option`/`Except`.
* ECDSA curve verification (`crypto/ecdsa.Verify`) is an external primitive
  of the Go standard library; it enters the model as an explicit function
  parameter, never as an axiom.
-/

/-- Byte strings: Go `[]byte` / `string`. -/
abbrev Bytes := List Nat

/-! ## SHA-256 (crypto/sha256), FIPS 180-4 -/

/-- Reduce to a 32-bit word. -/
def w32 (n : Nat) : Nat := n % 4294967296

/-- Right rotation of a 32-bit word. -/
def rotr (n x : Nat) : Nat := w32 ((x >>> n) ||| (x <<< (32 - n)))

def bsig0 (x : Nat) : Nat := (rotr 2 x) ^^^ (rotr 13 x) ^^^ (rotr 22 x)

def bsig1 (x : Nat) : Nat := (rotr 6 x) ^^^ (rotr 11 x) ^^^ (rotr 25 x)

def ssig0 (x : Nat) : Nat := (rotr 7 x) ^^^ (rotr 18 x) ^^^ (x >>> 3)

def ssig1 (x : Nat) : Nat := (rotr 17 x) ^^^ (rotr 19 x) ^^^ (x >>> 10)

def chf (x y z : Nat) : Nat := (x &&& y) ^^^ ((x ^^^ 4294967295) &&& z)

def majf (x y z : Nat) : Nat := (x &&& y) ^^^ (x &&& z) ^^^ (y &&& z)

/-- The eight working registers of the SHA-256 compression function. -/
structure Regs where
  a : Nat
  b : Nat
  c : Nat
  d : Nat
  e : Nat
  f : Nat
  g : Nat
  h : Nat
deriving DecidableEq, Repr

/-- SHA-256 initial hash value. -/
def sha256Init : Regs :=
  ⟨1779033703, 3144134277, 1013904242, 2773480762,
   1359893119, 2600822924, 528734635, 1541459225⟩

/-- SHA-256 round constants (decimal). -/
def sha256K : List Nat :=
  [1116352408, 1899447441, 3049323471, 3921009573, 961987163,
   1508970993, 2453635748, 2870763221, 3624381080, 310598401,
   607225278, 1426881987, 1925078388, 2162078206, 2614888103,
   3248222580, 3835390401, 4022224774, 264347078, 604807628,
   770255983, 1249150122, 1555081692, 1996064986, 2554220882,
   2821834349, 2952996808, 3210313671, 3336571891, 3584528711,
   113926993, 338241895, 666307205, 773529912, 1294757372,
   1396182291, 1695183700, 1986661051, 2177026350, 2456956037,
   2730485921, 2820302411, 3259730800, 3345764771, 3516065817,
   3600352804, 4094571909, 275423344, 430227734, 506948616,
   659060556, 883997877, 958139571, 1322822218, 1537002063,
   1747873779, 1955562222, 2024104815, 2227730452, 2361852424,
   2428436474, 2756734187, 3204031479, 3329325298]

/-- The 48 message-schedule extension steps over a sliding window of the
16 most recent words (oldest first): the next word is
`ssig1 w[i-2] + w[i-7] + ssig0 w[i-15] + w[i-16]` reduced to 32 bits. -/
def schedWindow : Nat → List Nat → List Nat
  | 0, _ => []
  | k+1, ws =>
    let nw := w32 (ssig1 (ws.getD 14 0) + ws.getD 9 0 + ssig0 (ws.getD 1 0) + ws.getD 0 0)
    nw :: schedWindow k (ws.tail ++ [nw])

/-- Extend the 16 message words of a block to the 64 schedule words. -/
def sha256Sched (ws : List Nat) : List Nat := ws ++ schedWindow 48 ws

/-- One SHA-256 round. -/
def sha256Round (k w : Nat) (r : Regs) : Regs :=
  let t1 := w32 (r.h + bsig1 r.e + chf r.e r.f r.g + k + w)
  let t2 := w32 (bsig0 r.a + majf r.a r.b r.c)
  ⟨w32 (t1 + t2), r.a, r.b, r.c, w32 (r.d + t1), r.e, r.f, r.g⟩

/-- Run the rounds over the paired constants and schedule words. -/
def sha256Rounds : List Nat → List Nat → Regs → Regs
  | k :: ks, w :: ws, r => sha256Rounds ks ws (sha256Round k w r)
  | _, _, r => r

/-- Parse bytes into big-endian 32-bit words. -/
def bytesToWords : Bytes → List Nat
  | b0 :: b1 :: b2 :: b3 :: rest =>
    (b0 * 16777216 + b1 * 65536 + b2 * 256 + b3) :: bytesToWords rest
  | _ => []

/-- Compress one 64-byte block into the running state. -/
def sha256Compress (r : Regs) (blockBytes : Bytes) : Regs :=
  let ws := sha256Sched (bytesToWords blockBytes)
  let s := sha256Rounds sha256K ws r
  ⟨w32 (r.a + s.a), w32 (r.b + s.b), w32 (r.c + s.c), w32 (r.d + s.d),
   w32 (r.e + s.e), w32 (r.f + s.f), w32 (r.g + s.g), w32 (r.h + s.h)⟩

/-- Compress all 64-byte blocks of an (already padded) message; the fuel is
any bound on the number of blocks, e.g. the message length. -/
def sha256Blocks : Nat → Regs → Bytes → Regs
  | 0, r, _ => r
  | _+1, r, [] => r
  | fuel+1, r, msg => sha256Blocks fuel (sha256Compress r (msg.take 64)) (msg.drop 64)

/-- Big-endian 8-byte encoding of a natural number (mod 2^64). -/
def natToBytesBE8 (n : Nat) : Bytes :=
  [n >>> 56 % 256, n >>> 48 % 256, n >>> 40 % 256, n >>> 32 % 256,
   n >>> 24 % 256, n >>> 16 % 256, n >>> 8 % 256, n % 256]

/-- SHA-256 message padding: a 0x80 byte, zeros to 56 mod 64, and the
bit length as a 64-bit big-endian integer. -/
def sha256Pad (msg : Bytes) : Bytes :=
  let L := msg.length
  msg ++ 128 :: List.replicate ((64 - (L + 9) % 64) % 64) 0 ++ natToBytesBE8 (8 * L)

/-- Emit a 32-bit word as four big-endian bytes. -/
def wordToBytes (w : Nat) : Bytes :=
  [w >>> 24 % 256, w >>> 16 % 256, w >>> 8 % 256, w % 256]

/-- SHA-256 of a byte string (the `sha256.Sum256` of the Go sources). -/
def sha256 (msg : Bytes) : Bytes :=
  let p := sha256Pad msg
  let r := sha256Blocks p.length sha256Init p
  wordToBytes r.a ++ wordToBytes r.b ++ wordToBytes r.c ++ wordToBytes r.d ++
  wordToBytes r.e ++ wordToBytes r.f ++ wordToBytes r.g ++ wordToBytes r.h

/-! ## Hex encoding (encoding/hex) -/

/-- ASCII code of the hex digit for a value < 16 (lowercase, as
`hex.EncodeToString` emits). -/
def hexDigit (n : Nat) : Nat := if n < 10 then 48 + n else 87 + n

/-- `hex.EncodeToString`: two lowercase hex characters per byte. -/
def hexEncode (bs : Bytes) : Bytes :=
  bs.flatMap (fun b => [hexDigit (b / 16), hexDigit (b % 16)])

/-- Value of one ASCII hex character (`hex.DecodeString` accepts both cases). -/
def hexVal (c : Nat) : Option Nat :=
  if 48 ≤ c ∧ c ≤ 57 then some (c - 48)
  else if 97 ≤ c ∧ c ≤ 102 then some (c - 87)
  else if 65 ≤ c ∧ c ≤ 70 then some (c - 55)
  else none

/-- `hex.DecodeString`: fails on odd length or a non-hex character. -/
def hexDecode : Bytes → Option Bytes
  | [] => some []
  | [_] => none
  | c1 :: c2 :: rest =>
    match hexVal c1, hexVal c2, hexDecode rest with
    | some a, some b, some r => some ((16 * a + b) :: r)
    | _, _, _ => none

/-- Big-endian unsigned interpretation of bytes (`big.Int.SetBytes`). -/
def bytesToNat (bs : Bytes) : Nat := bs.foldl (fun acc b => acc * 256 + b) 0

/-- `ToHex` of block.go: 8-byte big-endian two's-complement of an int64. -/
def toHex (n : Int) : Bytes := natToBytesBE8 ((n % 18446744073709551616).toNat)

/-! ## Merkle engine (merkle.go) -/

/-- A Merkle tree node: the Go struct with `Left`/`Right` pointers and the
digest `Data`; only the leaf (both nil) and full-node shapes occur. -/
inductive MNode where
  | leaf (data : Bytes)
  | node (left right : MNode) (data : Bytes)
deriving DecidableEq, Repr

def MNode.data : MNode → Bytes
  | .leaf d => d
  | .node _ _ d => d

/-- `NewMerkleNode(nil, nil, data)`: a leaf holds `sha256(data)`. -/
def newMerkleLeaf (d : Bytes) : MNode := .leaf (sha256 d)

/-- `NewMerkleNode(left, right, nil)`: an internal node holds
`sha256(left.Data ++ right.Data)`. -/
def newMerkleParent (l r : MNode) : MNode := .node l r (sha256 (l.data ++ r.data))

/-- One pass of the `NewMerkleTree` pairing loop: elements are paired in
order; a trailing lone element is paired with itself (`right = left`). -/
def pairUpN : List MNode → List MNode
  | [] => []
  | [a] => [newMerkleParent a a]
  | a :: b :: rest => newMerkleParent a b :: pairUpN rest

/-- The `for len(nodes) > 1` loop of `NewMerkleTree`; the fuel is any bound
on the number of passes (each pass at least halves the list). -/
def buildLevels : Nat → List MNode → List MNode
  | 0, ns => ns
  | fuel+1, ns => if ns.length ≤ 1 then ns else buildLevels fuel (pairUpN ns)

/-- Duplicate the last element when the length is odd (the explicit
pre-padding `NewMerkleTree` applies to its input list, and `GenerateProof`
applies to every level). -/
def padDup (l : List Bytes) : List Bytes :=
  if l.length % 2 = 1 then l ++ [l.getLastD []] else l

/-- `NewMerkleTree`: panics (`none`) on an empty input list; otherwise pads
the list of certificate IDs to even length, hashes each into a leaf, and
folds pairing passes down to the root. -/
def newMerkleTree (ids : List Bytes) : Option MNode :=
  match ids with
  | [] => none
  | _ =>
    let leaves := (padDup ids).map newMerkleLeaf
    (buildLevels leaves.length leaves).head?

/-- A Merkle inclusion proof: sibling digests with direction flags
(`true` = sibling is on the right). -/
structure MerkleProof where
  siblings : List Bytes
  directions : List Bool
deriving DecidableEq, Repr

/-- One pass of the `GenerateProof` level reduction on raw digests:
`sha256(left ++ right)` per pair, a trailing lone element paired with
itself (matching both `NewMerkleTree` and the padded `GenerateProof`
levels, which never expose the lone case). -/
def pairUpB : List Bytes → List Bytes
  | [] => []
  | [a] => [sha256 (a ++ a)]
  | a :: b :: rest => sha256 (a ++ b) :: pairUpB rest

/-- The `for len(level) > 1` loop of `GenerateProof`: at each level the pair
containing the tracked index records the other element as sibling (the
right neighbour when the index is even, else the left neighbour), and the
index moves to its pair's position in the next level. -/
def gpGo : Nat → List Bytes → Nat → MerkleProof
  | 0, _, _ => ⟨[], []⟩
  | fuel+1, level, idx =>
    if level.length ≤ 1 then ⟨[], []⟩
    else
      let lv := padDup level
      let sib := if idx % 2 = 0 then lv.getD (idx + 1) [] else lv.getD (idx - 1) []
      let rest := gpGo fuel (pairUpB lv) (idx / 2)
      ⟨sib :: rest.siblings, (idx % 2 == 0) :: rest.directions⟩

/-- `GenerateProof(leaves, leafIndex)`: empty proof for an empty leaf set or
out-of-range index; otherwise walk the pairing structure. -/
def generateProof (leaves : List Bytes) (leafIndex : Int) : MerkleProof :=
  if leaves.length = 0 ∨ leafIndex < 0 ∨ (leaves.length : Int) ≤ leafIndex then ⟨[], []⟩
  else gpGo leaves.length leaves leafIndex.toNat

/-- The recombination loop of `VerifyProof`; `none` models the index panic
when the proof has fewer directions than siblings. -/
def verifyFold : Bytes → List Bytes → List Bool → Option Bytes
  | curr, [], _ => some curr
  | _, _ :: _, [] => none
  | curr, sib :: sibs, dir :: dirs =>
    verifyFold (if dir then sha256 (curr ++ sib) else sha256 (sib ++ curr)) sibs dirs

/-- `VerifyProof(leafData, proof, root)`: hash the leaf bytes, recombine
with each sibling in its recorded direction, compare with the root. -/
def verifyProof (leafData : Bytes) (proof : MerkleProof) (root : Bytes) : Option Bool :=
  (verifyFold (sha256 leafData) proof.siblings proof.directions).map (fun d => d == root)

/-! ## Blocks (block.go) -/

/-- The Block struct of block.go. -/
structure Block where
  timestamp : Int
  hash : Bytes
  prevHash : Bytes
  height : Int
  certificateHashes : List Bytes
  signature : Bytes
  merkleRoot : Bytes
  universityAddress : Bytes
deriving DecidableEq, Repr

/-- The zero Block (only a default for total list indexing). -/
def dfltBlock : Block := ⟨0, [], [], 0, [], [], [], []⟩

/-- `hashCertificateIDs`: hex-encoded SHA-256 of each raw certificate ID. -/
def hashCertificateIDs (ids : List Bytes) : List Bytes :=
  ids.map (fun id => hexEncode (sha256 id))

/-- `HashCertificates`: concatenation of the stored hex digests
(`bytes.Join` with an empty separator). -/
def Block.hashCertificates (b : Block) : Bytes := b.certificateHashes.flatten

/-- The pre-image of `CalculateHash`: prev hash, certificate digests, Merkle
root, timestamp, height and signature — `UniversityAddress` is absent. -/
def Block.hashData (b : Block) : Bytes :=
  b.prevHash ++ b.hashCertificates ++ b.merkleRoot ++
  toHex b.timestamp ++ toHex b.height ++ b.signature

/-- `CalculateHash`: SHA-256 over `hashData`. -/
def calculateHash (b : Block) : Bytes := sha256 b.hashData

/-- The pre-image of `CalculateHashForSigning`: as `hashData` but without
the signature (and, as there, without `UniversityAddress`). -/
def Block.signingData (b : Block) : Bytes :=
  b.prevHash ++ b.hashCertificates ++ b.merkleRoot ++
  toHex b.timestamp ++ toHex b.height

/-- `CalculateHashForSigning`: SHA-256 over `signingData`. -/
def calculateHashForSigning (b : Block) : Bytes := sha256 b.signingData

/-- `VerifyCertificate`: hex digest of the candidate ID compared against
every stored certificate hash. -/
def verifyCertificate (b : Block) (certID : Bytes) : Bool :=
  b.certificateHashes.contains (hexEncode (sha256 certID))

/-- An ECDSA public key as the authorization check sees it: the curve
(compared by pointer identity in Go, here an opaque tag) and the two
coordinates. -/
structure PublicKey where
  curve : Nat
  x : Int
  y : Int
deriving DecidableEq, Repr

/-- `PublicKeysEqual`: curve and both coordinates. -/
def publicKeysEqual (k1 k2 : PublicKey) : Bool :=
  k1.curve == k2.curve && k1.x == k2.x && k1.y == k2.y

/-- The external `crypto/ecdsa.Verify` primitive: a parameter of the model
(public key, digest, r, s). -/
abbrev EcdsaVerify := PublicKey → Bytes → Nat → Nat → Bool

/-- `Block.Verify`: false on an absent signature or one whose byte length
does not split evenly into r and s; otherwise curve verification of the
split signature against the recomputed signing digest. -/
def blockVerify (ecv : EcdsaVerify) (pk : PublicKey) (b : Block) : Bool :=
  if b.signature.length = 0 then false
  else if b.signature.length % 2 ≠ 0 then false
  else
    let half := b.signature.length / 2
    ecv pk (calculateHashForSigning b)
      (bytesToNat (b.signature.take half)) (bytesToNat (b.signature.drop half))

/-! ## Authority registry (proof.go, identity package) -/

/-- The slice of an `identity.Identity` the authorization check reads:
`PrivateKey.PublicKey`. -/
structure UIdentity where
  pub : PublicKey
deriving DecidableEq, Repr

/-- The `identity.Signer` capability: public key, address, and the signing
operation (modelled as a function of the digest; the code only stores its
output). -/
structure Signer where
  pub : PublicKey
  addr : Bytes
  sign : Bytes → Bytes

/-- First-match association-list lookup (Go map reads). -/
def assocGet {α : Type} (l : List (Bytes × α)) (k : Bytes) : Option α :=
  (l.find? (fun p => p.1 == k)).map (fun p => p.2)

/-- The package-level authority state of proof.go: the
`AuthorizedUniversities` name-to-address map (as an entry list; map
iteration order does not affect the existence check) and the
`UniversityIdentities` store, `none` when uninitialized. -/
structure Registry where
  authorized : List (Bytes × Bytes)
  identities : Option (List (Bytes × UIdentity))

/-- The loop body of `IsAuthorizedUniversity`: skip empty addresses, look
the address up in the identity store (`none` models the nil-pointer panic
of `GetIdentity` on an unknown address), compare public keys. -/
def isAuthLoop (ids : List (Bytes × UIdentity)) (pk : PublicKey) :
    List (Bytes × Bytes) → Option Bool
  | [] => some false
  | (_, addr) :: rest =>
    if addr = [] then isAuthLoop ids pk rest
    else match assocGet ids addr with
      | none => none
      | some idy =>
        if publicKeysEqual pk idy.pub then some true else isAuthLoop ids pk rest

/-- `IsAuthorizedUniversity`: false when `UniversityIdentities` is nil,
otherwise the allow-list scan. -/
def isAuthorizedUniversity (reg : Registry) (pk : PublicKey) : Option Bool :=
  match reg.identities with
  | none => some false
  | some ids => isAuthLoop ids pk reg.authorized

/-- Reasons block construction aborts (each a `log.Panic` in NewBlock). -/
inductive BuildErr where
  | merkleEmpty
  | registryPanic
  | unauthorized
  | signatureInvalid
deriving DecidableEq, Repr

/-- `NewBlock`: build the field literal (Merkle tree first — it panics on an
empty ID list), sign the pre-signature digest, run the proof-of-authority
check (authorization, then signature verification), then set the full
hash. `now` stands for `time.Now().Unix()`. -/
def newBlock (ecv : EcdsaVerify) (reg : Registry) (ids : List Bytes)
    (prevHash : Bytes) (height : Int) (now : Int) (signer : Signer) :
    Except BuildErr Block :=
  match newMerkleTree ids with
  | none => .error .merkleEmpty
  | some rootNode =>
    let b0 : Block :=
      { timestamp := now
        hash := []
        prevHash := prevHash
        height := height
        certificateHashes := hashCertificateIDs ids
        signature := []
        merkleRoot := rootNode.data
        universityAddress := signer.addr }
    let b1 := { b0 with signature := signer.sign (calculateHashForSigning b0) }
    match isAuthorizedUniversity reg signer.pub with
    | none => .error .registryPanic
    | some false => .error .unauthorized
    | some true =>
      if blockVerify ecv signer.pub b1 then .ok { b1 with hash := calculateHash b1 }
      else .error .signatureInvalid

/-- `Genesis(signer)`: `NewBlock` on an empty certificate list, empty
previous hash, height 0. -/
def genesis (ecv : EcdsaVerify) (reg : Registry) (now : Int) (signer : Signer) :
    Except BuildErr Block :=
  newBlock ecv reg [] [] 0 now signer

/-- The violations `Block.Validate` reports, in source order. -/
inductive BlockErr where
  | badHash
  | badHeight
  | futureTimestamp
  | certLength (i : Nat)
  | certHex (i : Nat)
deriving DecidableEq, Repr

/-- The certificate-hash loop of `Validate`: each entry must be 64
characters and decode as hex; the first offending index is reported. -/
def checkCerts : Nat → List Bytes → Except BlockErr Unit
  | _, [] => .ok ()
  | i, c :: rest =>
    if c.length ≠ 64 then .error (.certLength i)
    else match hexDecode c with
      | none => .error (.certHex i)
      | some _ => checkCerts (i + 1) rest

/-- `Block.Validate`: recomputed hash, non-negative height, timestamp at
most one hour in the future, well-formed certificate hashes; first
violation wins. -/
def validate (b : Block) (now : Int) : Except BlockErr Unit :=
  if b.hash ≠ calculateHash b then .error .badHash
  else if b.height < 0 then .error .badHeight
  else if b.timestamp > now + 3600 then .error .futureTimestamp
  else checkCerts 0 b.certificateHashes

/-- Decode every stored hex digest into raw leaf bytes (the leaf-building
loop of `GenerateCertificateProof`; the Go loop returns failure at the
first undecodable entry, which coincides with `none` here). -/
def decodeLeaves : List Bytes → Option (List Bytes)
  | [] => some []
  | c :: rest =>
    match hexDecode c, decodeLeaves rest with
    | some b, some r => some (b :: r)
    | _, _ => none

/-- The index bookkeeping of `GenerateCertificateProof`: `idx = i` is
re-assigned at every match, so the last matching index wins. -/
def lastMatchIdx (target : Bytes) (l : List Bytes) : Option Nat :=
  (List.range l.length).foldl
    (fun acc i => if l.getD i [] == target then some i else acc) none

/-- `GenerateCertificateProof`: empty-or-rootless blocks and unknown IDs
yield `(empty, false)`; otherwise a proof over the decoded leaves at the
(last) matching index. -/
def generateCertificateProof (b : Block) (certID : Bytes) : MerkleProof × Bool :=
  if b.certificateHashes = [] ∨ b.merkleRoot = [] then (⟨[], []⟩, false)
  else
    match decodeLeaves b.certificateHashes with
    | none => (⟨[], []⟩, false)
    | some leaves =>
      match lastMatchIdx (hexEncode (sha256 certID)) b.certificateHashes with
      | none => (⟨[], []⟩, false)
      | some idx => (generateProof leaves (idx : Int), true)

/-- `VerifyCertificateWithProof`: verify the raw ID against the stored
Merkle root. -/
def verifyCertificateWithProof (b : Block) (certID : Bytes) (proof : MerkleProof) :
    Option Bool :=
  verifyProof certID proof b.merkleRoot

/-! ## Chain (blockchain.go) -/

/-- A chain handle: the `LastHash` field (kept equal to the `"lh"` key by
every writer) and the block store, keyed by block hash. `txn.Set`
overwrites, which front insertion models for first-match lookup. -/
structure Chain where
  lastHash : Bytes
  store : List (Bytes × Block)
deriving DecidableEq, Repr

/-- Point read of a block (`txn.Get` + `Deserialize`). -/
def storeGet (store : List (Bytes × Block)) (k : Bytes) : Option Block :=
  assocGet store k

/-- Chain-level failures, in the order ValidateChain and AddBlock report
them. -/
inductive ChainErr where
  | storageMissing
  | build (e : BuildErr)
  | emptyChain
  | loadFailed
  | genesisHeight
  | genesisPrevHash
  | genesisInvalid (e : BlockErr)
  | blockInvalid (i : Nat) (e : BlockErr)
  | badBlockHeight (i : Nat)
  | badPrevHash (i : Nat)
  | badTimestamp (i : Nat)
  | tipMismatch
deriving DecidableEq, Repr

/-- `AddBlock`: read the tip hash and tip block, build the next block at
`tip.height + 1` with `prev_hash = tip hash`, then persist it under its own
hash and advance the tip pointer. -/
def addBlock (ecv : EcdsaVerify) (reg : Registry) (c : Chain) (ids : List Bytes)
    (now : Int) (signer : Signer) : Except ChainErr (Chain × Block) :=
  match storeGet c.store c.lastHash with
  | none => .error .storageMissing
  | some prevBlock =>
    match newBlock ecv reg ids c.lastHash (prevBlock.height + 1) now signer with
    | .error e => .error (.build e)
    | .ok b => .ok ({ lastHash := b.hash, store := (b.hash, b) :: c.store }, b)

/-- The backward walk of `ValidateChain`: follow `prev_hash` links from the
tip until a block with empty `prev_hash`, newest first. `none` covers both
a failed load and fuel exhaustion (the Go loop would not terminate on a
cyclic store); one unit of fuel per distinct store key always suffices for
a terminating walk. -/
def collectBack (store : List (Bytes × Block)) : Bytes → Nat → Option (List Block)
  | _, 0 => none
  | h, fuel+1 =>
    match storeGet store h with
    | none => none
    | some b =>
      if b.prevHash = [] then some [b]
      else (collectBack store b.prevHash fuel).map (fun bs => b :: bs)

/-- The per-block loop of `ValidateChain` over the oldest-to-newest list:
self-validity, height continuity, `prev_hash` linkage, non-decreasing
timestamps; first violation wins. -/
def validateRest (now : Int) : Block → Nat → List Block → Except ChainErr Unit
  | _, _, [] => .ok ()
  | prev, i, b :: rest =>
    match validate b now with
    | .error e => .error (.blockInvalid i e)
    | .ok () =>
      if b.height ≠ (i : Int) then .error (.badBlockHeight i)
      else if b.prevHash ≠ prev.hash then .error (.badPrevHash i)
      else if b.timestamp < prev.timestamp then .error (.badTimestamp i)
      else validateRest now b (i + 1) rest

/-- The oldest-to-newest phase of `ValidateChain`: the genesis checks, the
per-block loop, and the final tip-pointer comparison (the empty case is
unreachable: the walk always yields at least one block). -/
def validateBlocks (lastHash : Bytes) (now : Int) : List Block → Except ChainErr Unit
  | [] => .error .loadFailed
  | g :: rest =>
    if g.height ≠ 0 then .error .genesisHeight
    else if g.prevHash ≠ [] then .error .genesisPrevHash
    else
      match validate g now with
      | .error e => .error (.genesisInvalid e)
      | .ok () =>
        match validateRest now g 1 rest with
        | .error e => .error e
        | .ok () =>
          if lastHash ≠ ((g :: rest).getLastD dfltBlock).hash
          then .error .tipMismatch
          else .ok ()

/-- `ValidateChain`: empty tip pointer fails; otherwise collect the
backward walk, reverse it, check the genesis block structurally, run the
per-block loop, and finally compare the stored tip pointer with the newest
block's hash. -/
def validateChain (c : Chain) (now : Int) : Except ChainErr Unit :=
  if c.lastHash = [] then .error .emptyChain
  else
    match collectBack c.store c.lastHash (c.store.length + 1) with
    | none => .error .loadFailed
    | some bs => validateBlocks c.lastHash now bs.reverse

/-- `BlockchainStats`. -/
structure Stats where
  blockCount : Nat
  certificateCount : Nat
deriving DecidableEq, Repr

/-- The iterator loop of `GetStats`: count blocks and certificates from the
tip back to the first block with empty `prev_hash`; `none` models the
iterator panic on a missing block (or a non-terminating cyclic walk). -/
def statsGo (store : List (Bytes × Block)) : Bytes → Nat → Nat → Nat → Option Stats
  | _, 0, _, _ => none
  | h, fuel+1, bc, cc =>
    match storeGet store h with
    | none => none
    | some b =>
      if b.prevHash = [] then some ⟨bc + 1, cc + b.certificateHashes.length⟩
      else statsGo store b.prevHash fuel (bc + 1) (cc + b.certificateHashes.length)

/-- `GetStats`: run the iterator from the tip. -/
def getStats (c : Chain) : Option Stats :=
  statsGo c.store c.lastHash (c.store.length + 1) 0 0

/-! ## Spec-level chain predicates

Declarative counterparts of the `ValidateChain` algorithm, written from the
specification's description for the refinement claims. -/

/-- The backward walk the spec describes: from a tip hash, each block is
found in the store under the current hash and the walk follows `prev_hash`
links until a block with empty `prev_hash` (the genesis) is reached. -/
inductive IsBackWalk (store : List (Bytes × Block)) : Bytes → List Block → Prop where
  | last (h : Bytes) (b : Block) :
      storeGet store h = some b → b.prevHash = [] → IsBackWalk store h [b]
  | step (h : Bytes) (b : Block) (bs : List Block) :
      storeGet store h = some b → b.prevHash ≠ [] →
      IsBackWalk store b.prevHash bs → IsBackWalk store h (b :: bs)

/-- The keys a backward walk looks up: the start hash, then each block's
`prev_hash`. -/
def walkKeys (h : Bytes) : List Block → List Bytes
  | [] => []
  | b :: bs => h :: walkKeys b.prevHash bs

/-- The spec's per-position checks over the oldest-to-newest block list:
every block after the first is self-valid, has height equal to its
position, links to the previous block's hash, and does not decrease the
timestamp. -/
def LinkChecks (now : Int) (obs : List Block) : Prop :=
  ∀ i, 0 < i → i < obs.length →
    validate (obs.getD i dfltBlock) now = .ok () ∧
    (obs.getD i dfltBlock).height = (i : Int) ∧
    (obs.getD i dfltBlock).prevHash = (obs.getD (i - 1) dfltBlock).hash ∧
    (obs.getD (i - 1) dfltBlock).timestamp ≤ (obs.getD i dfltBlock).timestamp

/-- The spec's description of a valid chain: a non-empty tip pointer, a
backward walk to genesis, a structurally valid genesis at the head of the
reversed (oldest-to-newest) list, the per-position checks, and a tip
pointer equal to the newest block's hash. -/
def ChainSpecOk (c : Chain) (now : Int) : Prop :=
  c.lastHash ≠ [] ∧
  ∃ bs, IsBackWalk c.store c.lastHash bs ∧
    (bs.reverse.headD dfltBlock).height = 0 ∧
    (bs.reverse.headD dfltBlock).prevHash = [] ∧
    validate (bs.reverse.headD dfltBlock) now = .ok () ∧
    LinkChecks now bs.reverse ∧
    c.lastHash = (bs.reverse.getLastD dfltBlock).hash

/-- The Merkle commitment exactly as the specification words it, for
comparison with the code: the engine applied to the list of per-ID digests
`[sha256 id_1, ..., sha256 id_n]`, its leaf digests hashing those inputs
again. -/
def specMerkleRootOverDigests (ids : List Bytes) : Option Bytes :=
  (newMerkleTree (ids.map sha256)).map MNode.data

/-- Digest-level Merkle levels: the pairing passes over a list of raw
digests (the level structure shared by `NewMerkleTree` and
`GenerateProof`). -/
def levelsB : Nat → List Bytes → List Bytes
  | 0, l => l
  | fuel+1, l => if l.length ≤ 1 then l else levelsB fuel (pairUpB l)

/-- Digest-level Merkle root of a list of leaf digests. -/
def merkleRootOfLeaves (leaves : List Bytes) : Bytes :=
  (levelsB leaves.length leaves).headD []

/-- Replace a block's signature and recompute its hash over the new
signature (the tampering operation of the signature-independence claim). -/
def resignBlock (b : Block) (s : Bytes) : Block :=
  let b2 := { b with signature := s }
  { b2 with hash := calculateHash b2 }

/-- `append` iterated over a list of (credential IDs, clock value) steps
with a fixed signer, threading the chain. -/
def appendRun (ecv : EcdsaVerify) (reg : Registry) (signer : Signer) :
    Chain → List (List Bytes × Int) → Except ChainErr Chain
  | c, [] => .ok c
  | c, (ids, now) :: rest =>
    match addBlock ecv reg c ids now signer with
    | .error e => .error e
    | .ok (c2, _) => appendRun ecv reg signer c2 rest

/-- Side conditions under which an `appendRun` models the specification's
"append applied N times": every step finds the tip, appends at a clock not
before the tip's timestamp and within clock skew of the validation time,
succeeds, and produces a block hash not already present as a store key. -/
def runOk (ecv : EcdsaVerify) (reg : Registry) (signer : Signer) (nowV : Int) :
    Chain → List (List Bytes × Int) → Bool
  | _, [] => true
  | c, (ids, now) :: rest =>
    match storeGet c.store c.lastHash with
    | none => false
    | some tip =>
      decide (tip.timestamp ≤ now) && decide (now ≤ nowV + 3600) &&
      match addBlock ecv reg c ids now signer with
      | .error _ => false
      | .ok (c2, b) =>
        decide (b.hash ∉ c.store.map Prod.fst) && runOk ecv reg signer nowV c2 rest

deriving instance DecidableEq for Except

/-! ## Concrete fixtures for witnesses -/

/-- "CERT-001" as bytes. -/
def certA : Bytes := [67, 69, 82, 84, 45, 48, 48, 49]

/-- "CERT-002" as bytes. -/
def certB : Bytes := [67, 69, 82, 84, 45, 48, 48, 50]

/-- "CERT-003" as bytes. -/
def certC : Bytes := [67, 69, 82, 84, 45, 48, 48, 51]

/-- A curve-verify stub that accepts everything (the theorems quantify over
the primitive; witnesses may pick any instance). -/
def ecvTrue : EcdsaVerify := fun _ _ _ _ => true

def pkOne : PublicKey := ⟨1, 2, 3⟩

def pkTwo : PublicKey := ⟨1, 2, 4⟩

/-- "addr" as bytes. -/
def addrOne : Bytes := [97, 100, 100, 114]

def signerOne : Signer := ⟨pkOne, addrOne, fun _ => [1, 2]⟩

def signerTwo : Signer := ⟨pkTwo, addrOne, fun _ => [1, 2]⟩

/-- A registry with one initialized university whose identity holds
`pkOne`. -/
def regOne : Registry := ⟨[([104], addrOne)], some [(addrOne, ⟨pkOne⟩)]⟩

/-- A registry whose identity store was never initialized. -/
def regNil : Registry := ⟨[([104], addrOne)], none⟩

/-- A registry with an empty allow-list. -/
def regEmpty : Registry := ⟨[], some []⟩

/-- The block `NewBlock` produces for the single credential "CERT-001" at
height 0 and clock 1000, as a literal (the claim theorems check it against
`newBlock` itself). -/
def blockOneCert : Block :=
  { timestamp := 1000
    hash := [74, 210, 158, 113, 152, 9, 235, 169, 245, 71, 155, 101, 143, 22,
             58, 63, 177, 81, 106, 99, 192, 0, 243, 218, 122, 131, 186, 55,
             83, 106, 38, 226]
    prevHash := []
    height := 0
    certificateHashes := [[100, 52, 50, 50, 54, 100, 55, 52, 102, 54, 55, 50,
      53, 52, 97, 52, 50, 97, 56, 100, 53, 52, 102, 99, 98, 51, 50, 101, 55,
      100, 97, 100, 99, 48, 55, 50, 55, 48, 48, 57, 100, 51, 51, 102, 56, 50,
      53, 48, 54, 48, 100, 49, 50, 101, 57, 48, 50, 98, 53, 100, 99, 54, 56, 99]]
    signature := [1, 2]
    merkleRoot := [152, 48, 252, 21, 40, 153, 106, 236, 46, 187, 0, 69, 81,
                   164, 85, 32, 36, 100, 129, 45, 58, 108, 80, 66, 10, 34, 52,
                   124, 192, 13, 251, 30]
    universityAddress := [97, 100, 100, 114] }

/-- The block for credentials "CERT-001", "CERT-002" at height 0, clock
1000, as a literal. -/
def blockTwoCert : Block :=
  { timestamp := 1000
    hash := [144, 152, 37, 15, 226, 97, 54, 221, 135, 252, 199, 254, 158, 34,
             154, 69, 94, 158, 204, 117, 56, 44, 91, 20, 40, 31, 220, 103, 59,
             119, 148, 248]
    prevHash := []
    height := 0
    certificateHashes := [[100, 52, 50, 50, 54, 100, 55, 52, 102, 54, 55, 50,
      53, 52, 97, 52, 50, 97, 56, 100, 53, 52, 102, 99, 98, 51, 50, 101, 55,
      100, 97, 100, 99, 48, 55, 50, 55, 48, 48, 57, 100, 51, 51, 102, 56, 50,
      53, 48, 54, 48, 100, 49, 50, 101, 57, 48, 50, 98, 53, 100, 99, 54, 56, 99],
      [55, 98, 101, 56, 101, 100, 57, 56, 98, 51, 97, 97, 97, 51, 50, 50, 97,
       98, 100, 101, 57, 54, 48, 54, 57, 55, 50, 97, 50, 51, 101, 99, 55, 51,
       101, 48, 57, 50, 49, 51, 98, 50, 54, 100, 55, 49, 50, 99, 99, 48, 98,
       101, 50, 49, 48, 51, 102, 53, 56, 97, 48, 51, 101, 101]]
    signature := [1, 2]
    merkleRoot := [152, 142, 154, 1, 40, 204, 32, 194, 28, 149, 48, 176, 144,
                   9, 162, 76, 88, 33, 154, 14, 196, 212, 228, 225, 137, 119,
                   202, 43, 194, 254, 26, 167]
    universityAddress := [97, 100, 100, 114] }

/-- A one-block chain rooted at `blockOneCert`. -/
def chainOne : Chain := ⟨blockOneCert.hash, [(blockOneCert.hash, blockOneCert)]⟩

/-- The block `AddBlock` appends on top of `chainOne` for "CERT-002" at
clock 1500, as a literal. -/
def blockStep1 : Block :=
  { timestamp := 1500
    hash := [148, 231, 226, 252, 238, 240, 249, 226, 149, 109, 228, 95, 194, 86,
             65, 164, 29, 134, 67, 168, 190, 6, 79, 40, 129, 175, 14, 87, 53,
             45, 213, 94]
    prevHash := [74, 210, 158, 113, 152, 9, 235, 169, 245, 71, 155, 101, 143,
                 22, 58, 63, 177, 81, 106, 99, 192, 0, 243, 218, 122, 131, 186,
                 55, 83, 106, 38, 226]
    height := 1
    certificateHashes := [[55, 98, 101, 56, 101, 100, 57, 56, 98, 51, 97, 97,
      97, 51, 50, 50, 97, 98, 100, 101, 57, 54, 48, 54, 57, 55, 50, 97, 50, 51,
      101, 99, 55, 51, 101, 48, 57, 50, 49, 51, 98, 50, 54, 100, 55, 49, 50,
      99, 99, 48, 98, 101, 50, 49, 48, 51, 102, 53, 56, 97, 48, 51, 101, 101]]
    signature := [1, 2]
    merkleRoot := [227, 25, 186, 86, 61, 174, 180, 191, 40, 142, 224, 104, 135,
                   245, 135, 67, 200, 194, 166, 132, 31, 207, 248, 63, 62, 193,
                   67, 205, 133, 104, 175, 255]
    universityAddress := [97, 100, 100, 114] }

/-- The two-block chain after that append. -/
def chainTwo : Chain :=
  ⟨blockStep1.hash, [(blockStep1.hash, blockStep1), (blockOneCert.hash, blockOneCert)]⟩

/-- Two blocks differing only in `universityAddress`. -/
def blockAddrOne : Block := ⟨5, [], [7], 1, [], [9], [11], [1]⟩

/-- `blockAddrOne` with the other signer identity. -/
def blockAddrTwo : Block := ⟨5, [], [7], 1, [], [9], [11], [2]⟩

/-! ## Basic facts about the primitives -/

theorem length_wordToBytes (w : Nat) : (wordToBytes w).length = 4 := rfl

theorem length_sha256 (m : Bytes) : (sha256 m).length = 32 := by
  simp [sha256, wordToBytes]

theorem sha256_ne_nil (m : Bytes) : sha256 m ≠ [] := by
  intro h
  have := length_sha256 m
  rw [h] at this
  simp at this

theorem mem_wordToBytes_lt {w x : Nat} (hx : x ∈ wordToBytes w) : x < 256 := by
  simp only [wordToBytes, List.mem_cons, List.not_mem_nil, or_false] at hx
  rcases hx with h | h | h | h <;> subst h <;> exact Nat.mod_lt _ (by norm_num)

theorem mem_sha256_lt {m : Bytes} {x : Nat} (hx : x ∈ sha256 m) : x < 256 := by
  simp only [sha256, List.mem_append] at hx
  rcases hx with ((((((h | h) | h) | h) | h) | h) | h) | h <;> exact mem_wordToBytes_lt h

theorem hexVal_hexDigit {d : Nat} (hd : d < 16) : hexVal (hexDigit d) = some d := by
  unfold hexVal hexDigit
  split <;> rename_i h
  · split <;> rename_i h2
    · congr 1; omega
    · exfalso; omega
  · split <;> rename_i h2
    · exfalso; omega
    · split <;> rename_i h3
      · congr 1; omega
      · exfalso; omega

theorem hexDecode_hexEncode {l : Bytes} (hl : ∀ x ∈ l, x < 256) :
    hexDecode (hexEncode l) = some l := by
  induction l with
  | nil => rfl
  | cons b rest ih =>
    have hb : b < 256 := hl b (List.mem_cons_self b rest)
    have h1 : b / 16 < 16 := by omega
    have h2 : b % 16 < 16 := by omega
    have hrest : hexDecode (hexEncode rest) = some rest :=
      ih (fun x hx => hl x (List.mem_cons_of_mem _ hx))
    show hexDecode (hexDigit (b / 16) :: hexDigit (b % 16) :: hexEncode rest) = some (b :: rest)
    unfold hexDecode
    rw [hexVal_hexDigit h1, hexVal_hexDigit h2, hrest]
    have : 16 * (b / 16) + b % 16 = b := by omega
    simp [this]

theorem length_hexEncode (l : Bytes) : (hexEncode l).length = 2 * l.length := by
  induction l with
  | nil => rfl
  | cons b rest ih =>
    show (hexDigit (b / 16) :: hexDigit (b % 16) :: hexEncode rest).length = _
    simp [ih]; omega

theorem natToBytesBE8_inj {a b : Nat} (ha : a < 18446744073709551616)
    (hb : b < 18446744073709551616) (h : natToBytesBE8 a = natToBytesBE8 b) : a = b := by
  simp only [natToBytesBE8, List.cons.injEq, and_true] at h
  obtain ⟨h1, h2, h3, h4, h5, h6, h7, h8⟩ := h
  simp only [Nat.shiftRight_eq_div_pow] at h1 h2 h3 h4 h5 h6 h7
  omega

theorem toHex_inj {a b : Int} (ha1 : -(2 ^ 63) ≤ a) (ha2 : a < 2 ^ 63)
    (hb1 : -(2 ^ 63) ≤ b) (hb2 : b < 2 ^ 63) (h : toHex a = toHex b) : a = b := by
  unfold toHex at h
  have := natToBytesBE8_inj (a := (a % 18446744073709551616).toNat)
    (b := (b % 18446744073709551616).toNat) (by omega) (by omega) h
  omega

theorem flatten64_inj : ∀ {l1 l2 : List Bytes},
    (∀ x ∈ l1, x.length = 64) → (∀ x ∈ l2, x.length = 64) →
    l1.flatten = l2.flatten → l1 = l2 := by
  intro l1
  induction l1 with
  | nil =>
    intro l2 _ h2 h
    cases l2 with
    | nil => rfl
    | cons y ys =>
      exfalso
      have hy : y.length = 64 := h2 y (List.mem_cons_self y ys)
      have := congrArg List.length h
      simp at this
      omega
  | cons x xs ih =>
    intro l2 h1 h2 h
    cases l2 with
    | nil =>
      exfalso
      have hx : x.length = 64 := h1 x (List.mem_cons_self x xs)
      have := congrArg List.length h
      simp only [List.flatten_cons, List.flatten_nil, List.length_append,
        List.length_nil] at this
      omega
    | cons y ys =>
      simp only [List.flatten_cons] at h
      have hx : x.length = 64 := h1 x (List.mem_cons_self x xs)
      have hy : y.length = 64 := h2 y (List.mem_cons_self y ys)
      obtain ⟨hxy, hrest⟩ := List.append_inj h (by omega)
      have := ih (fun z hz => h1 z (List.mem_cons_of_mem _ hz))
        (fun z hz => h2 z (List.mem_cons_of_mem _ hz)) hrest
      rw [hxy, this]

/-! ## Facts about block construction -/

theorem newBlock_ok_spec {ecv : EcdsaVerify} {reg : Registry} {ids : List Bytes}
    {prevHash : Bytes} {height now : Int} {signer : Signer} {b : Block}
    (hb : newBlock ecv reg ids prevHash height now signer = .ok b) :
    b.timestamp = now ∧ b.prevHash = prevHash ∧ b.height = height ∧
    b.certificateHashes = hashCertificateIDs ids ∧
    b.universityAddress = signer.addr ∧
    b.hash = calculateHash b ∧ ids ≠ [] ∧
    (∃ n, newMerkleTree ids = some n ∧ b.merkleRoot = n.data) := by
  unfold newBlock at hb
  cases hm : newMerkleTree ids with
  | none => rw [hm] at hb; exact absurd hb (by simp)
  | some rootNode =>
    rw [hm] at hb
    simp only at hb
    cases ha : isAuthorizedUniversity reg signer.pub with
    | none => rw [ha] at hb; exact absurd hb (by simp)
    | some auth =>
      rw [ha] at hb
      cases auth with
      | false => exact absurd hb (by simp)
      | true =>
        simp only at hb
        by_cases hv : blockVerify ecv signer.pub
            { timestamp := now, hash := [], prevHash := prevHash, height := height,
              certificateHashes := hashCertificateIDs ids,
              signature := signer.sign (calculateHashForSigning
                { timestamp := now, hash := [], prevHash := prevHash, height := height,
                  certificateHashes := hashCertificateIDs ids, signature := [],
                  merkleRoot := rootNode.data, universityAddress := signer.addr }),
              merkleRoot := rootNode.data, universityAddress := signer.addr } = true
        · rw [if_pos hv] at hb
          have hb' := hb
          injection hb' with hbeq
          subst hbeq
          refine ⟨rfl, rfl, rfl, rfl, rfl, rfl, ?_, rootNode, rfl, rfl⟩
          intro hnil
          subst hnil
          simp [newMerkleTree] at hm
        · rw [if_neg hv] at hb; exact absurd hb (by simp)

theorem checkCerts_hashCertificateIDs (i : Nat) (ids : List Bytes) :
    checkCerts i (hashCertificateIDs ids) = .ok () := by
  induction ids generalizing i with
  | nil => rfl
  | cons id rest ih =>
    show checkCerts i (hexEncode (sha256 id) :: hashCertificateIDs rest) = .ok ()
    unfold checkCerts
    have hlen : (hexEncode (sha256 id)).length = 64 := by
      rw [length_hexEncode, length_sha256]
    rw [if_neg (by omega)]
    rw [hexDecode_hexEncode (fun x hx => mem_sha256_lt hx)]
    exact ih (i + 1)

/-- `Validate` succeeds on any block `NewBlock` returns, at any validation
clock within one hour behind the construction clock, for a non-negative
height. -/
theorem validate_newBlock {ecv : EcdsaVerify} {reg : Registry} {ids : List Bytes}
    {prevHash : Bytes} {height now : Int} {signer : Signer} {b : Block} (nowV : Int)
    (hb : newBlock ecv reg ids prevHash height now signer = .ok b)
    (hh : 0 ≤ height) (hnow : now ≤ nowV + 3600) :
    validate b nowV = .ok () := by
  obtain ⟨hts, _, hht, hcs, _, hhash, _⟩ := newBlock_ok_spec hb
  unfold validate
  rw [if_neg (by rw [hhash]; simp), if_neg (by omega), if_neg (by omega), hcs]
  exact checkCerts_hashCertificateIDs 0 ids

/-! ## Merkle tree and digest-level correspondence -/

theorem pairUpN_data : ∀ ns : List MNode,
    (pairUpN ns).map MNode.data = pairUpB (ns.map MNode.data)
  | [] => rfl
  | [_] => rfl
  | a :: b :: rest => by
    show (newMerkleParent a b).data :: (pairUpN rest).map MNode.data = _
    rw [pairUpN_data rest]
    rfl

theorem buildLevels_data : ∀ (fuel : Nat) (ns : List MNode),
    (buildLevels fuel ns).map MNode.data = levelsB fuel (ns.map MNode.data)
  | 0, _ => rfl
  | fuel+1, ns => by
    unfold buildLevels levelsB
    rw [List.length_map]
    by_cases h : ns.length ≤ 1
    · rw [if_pos h, if_pos h]
    · rw [if_neg h, if_neg h, buildLevels_data fuel (pairUpN ns), pairUpN_data]

theorem newMerkleTree_data {ids : List Bytes} {n : MNode}
    (h : newMerkleTree ids = some n) :
    n.data = merkleRootOfLeaves ((padDup ids).map sha256) := by
  cases ids with
  | nil => exact absurd h (by simp [newMerkleTree])
  | cons i rest =>
    unfold newMerkleTree at h
    simp only at h
    have hmap := congrArg (fun o => Option.map MNode.data o) h
    simp only [← List.head?_map, buildLevels_data, List.map_map] at hmap
    have hcomp : MNode.data ∘ newMerkleLeaf = sha256 := by
      funext d; rfl
    rw [hcomp] at hmap
    unfold merkleRootOfLeaves
    rw [List.headD_eq_head?_getD]
    rw [List.length_map] at hmap ⊢
    rw [hmap]
    rfl

example : sha256 [0x61, 0x62, 0x63] =
    [0xba, 0x78, 0x16, 0xbf, 0x8f, 0x01, 0xcf, 0xea, 0x41, 0x41, 0x40, 0xde,
     0x5d, 0xae, 0x22, 0x23, 0xb0, 0x03, 0x61, 0xa3, 0x96, 0x17, 0x7a, 0x9c,
     0xb4, 0x10, 0xff, 0x61, 0xf2, 0x00, 0x15, 0xad] := by decide

/-! ## Claim C2 -/

/-- C2: the claim says `Genesis(signer)`, as called by chain
initialization, returns a height-0 block with empty prev hash and an empty
credential list. The code refutes it: the Merkle tree construction inside
`NewBlock` panics on the empty certificate list, so genesis construction
aborts for every curve-verify primitive, registry, clock and signer. -/
theorem genesis_always_panics (ecv : EcdsaVerify) (reg : Registry) (now : Int)
    (signer : Signer) :
    genesis ecv reg now signer = .error BuildErr.merkleEmpty := rfl

/-! ## Claim C1 -/

/-- C1: the claim says proof generation and verification round-trip for
every id of every non-empty credential list. Evaluated at the failing
input — the one-element list ["CERT-001"] — the constructed block reports
the id as a member and returns an empty proof flagged as found, yet
verification of that proof against the stored root returns false: the
tree duplicates the single ID into two leaves while `GenerateProof` sees
one leaf and records no siblings. -/
theorem single_cert_proof_never_verifies :
    newBlock ecvTrue regOne [certA] [] 0 1000 signerOne = .ok blockOneCert ∧
    verifyCertificate blockOneCert certA = true ∧
    generateCertificateProof blockOneCert certA = (⟨[], []⟩, true) ∧
    generateProof [sha256 certA] 0 = ⟨[], []⟩ ∧
    verifyCertificateWithProof blockOneCert certA
      (generateCertificateProof blockOneCert certA).1 = some false := by decide

/-! ## Claim C6 -/

/-- C6 counterexample: the claim says the stored merkle_root is the engine
commitment over the list of per-ID digests. At the concrete input
["CERT-001"] the block's root differs from that commitment: the code
builds the tree over the raw IDs, not over their digests. -/
theorem merkle_root_not_spec_commitment :
    newBlock ecvTrue regOne [certA] [] 0 1000 signerOne = .ok blockOneCert ∧
    specMerkleRootOverDigests [certA] ≠ some blockOneCert.merkleRoot := by decide

/-- C6 (amended): for every block construction returns, the stored
merkle_root is the Merkle commitment built directly over the raw
credential IDs: the leaf level is the list of per-ID digests
`sha256(raw_id_bytes)` of the duplicate-padded ID list, with no second
hashing of those digests. -/
theorem merkleRoot_over_raw_ids {ecv : EcdsaVerify} {reg : Registry}
    {ids : List Bytes} {prevHash : Bytes} {height now : Int} {signer : Signer}
    {b : Block} (hb : newBlock ecv reg ids prevHash height now signer = .ok b) :
    b.merkleRoot = merkleRootOfLeaves ((padDup ids).map sha256) := by
  obtain ⟨_, _, _, _, _, _, _, n, hn, hroot⟩ := newBlock_ok_spec hb
  rw [hroot, newMerkleTree_data hn]

/-- Witness for C6 (amended) at the concrete two-credential block. -/
theorem merkleRoot_over_raw_ids_witness :
    blockTwoCert.merkleRoot = merkleRootOfLeaves ((padDup [certA, certB]).map sha256) :=
  merkleRoot_over_raw_ids
    (by decide : newBlock ecvTrue regOne [certA, certB] [] 0 1000 signerOne = .ok blockTwoCert)

/-! ## Claim C5 -/

/-- C5 counterexample: the claim says the block hash digests every field
including the signer identity, so blocks differing in signer identity hash
differently. These two concrete blocks differ only in
`universityAddress`, yet `CalculateHash` agrees on them: the address is
not part of the hash pre-image. -/
theorem hash_ignores_university_address :
    blockAddrTwo = { blockAddrOne with universityAddress := [2] } ∧
    blockAddrOne.universityAddress ≠ blockAddrTwo.universityAddress ∧
    calculateHash blockAddrOne = calculateHash blockAddrTwo := by decide

theorem length_toHex (n : Int) : (toHex n).length = 8 := rfl

/-- C5 (amended): `CalculateHash` digests prev_hash, the credential
hashes, the merkle root, timestamp, height and signature but not the
signer identity: changing only `universityAddress` never changes the hash,
while changing exactly one of the digested fields (timestamp and height as
int64 values, credential entries 64 characters as `Validate` requires)
changes the SHA-256 pre-image and hence the hash, unless SHA-256 collides
on the two pre-images (the `hinj*` hypotheses rule such a collision out
for the pair at hand). -/
theorem calculateHash_field_dependence (b : Block) (a2 p m s : Bytes)
    (cs : List Bytes) (t2 h2 : Int)
    (hp : p ≠ b.prevHash)
    (hinjP : sha256 (Block.hashData { b with prevHash := p }) = sha256 b.hashData →
      Block.hashData { b with prevHash := p } = b.hashData)
    (hcs : cs ≠ b.certificateHashes)
    (hcs1 : ∀ x ∈ cs, x.length = 64)
    (hcs2 : ∀ x ∈ b.certificateHashes, x.length = 64)
    (hinjC : sha256 (Block.hashData { b with certificateHashes := cs }) = sha256 b.hashData →
      Block.hashData { b with certificateHashes := cs } = b.hashData)
    (hm : m ≠ b.merkleRoot)
    (hinjM : sha256 (Block.hashData { b with merkleRoot := m }) = sha256 b.hashData →
      Block.hashData { b with merkleRoot := m } = b.hashData)
    (ht : t2 ≠ b.timestamp)
    (ht1 : -(2 ^ 63) ≤ t2) (ht2 : t2 < 2 ^ 63)
    (ht3 : -(2 ^ 63) ≤ b.timestamp) (ht4 : b.timestamp < 2 ^ 63)
    (hinjT : sha256 (Block.hashData { b with timestamp := t2 }) = sha256 b.hashData →
      Block.hashData { b with timestamp := t2 } = b.hashData)
    (hh : h2 ≠ b.height)
    (hh1 : -(2 ^ 63) ≤ h2) (hh2 : h2 < 2 ^ 63)
    (hh3 : -(2 ^ 63) ≤ b.height) (hh4 : b.height < 2 ^ 63)
    (hinjH : sha256 (Block.hashData { b with height := h2 }) = sha256 b.hashData →
      Block.hashData { b with height := h2 } = b.hashData)
    (hs : s ≠ b.signature)
    (hinjS : sha256 (Block.hashData { b with signature := s }) = sha256 b.hashData →
      Block.hashData { b with signature := s } = b.hashData) :
    calculateHash { b with universityAddress := a2 } = calculateHash b ∧
    calculateHash { b with prevHash := p } ≠ calculateHash b ∧
    calculateHash { b with certificateHashes := cs } ≠ calculateHash b ∧
    calculateHash { b with merkleRoot := m } ≠ calculateHash b ∧
    calculateHash { b with timestamp := t2 } ≠ calculateHash b ∧
    calculateHash { b with height := h2 } ≠ calculateHash b ∧
    calculateHash { b with signature := s } ≠ calculateHash b := by
  refine ⟨rfl, ?_, ?_, ?_, ?_, ?_, ?_⟩
  · intro heq
    have hd := hinjP heq
    simp only [Block.hashData, Block.hashCertificates] at hd
    have hd2 := List.append_cancel_right (List.append_cancel_right
      (List.append_cancel_right (List.append_cancel_right (List.append_cancel_right hd))))
    exact hp hd2
  · intro heq
    have hd := hinjC heq
    simp only [Block.hashData, Block.hashCertificates] at hd
    have hd2 := List.append_cancel_right (List.append_cancel_right
      (List.append_cancel_right (List.append_cancel_right hd)))
    have hd3 := List.append_cancel_left hd2
    exact hcs (flatten64_inj hcs1 hcs2 hd3)
  · intro heq
    have hd := hinjM heq
    simp only [Block.hashData, Block.hashCertificates] at hd
    have hd2 := List.append_cancel_right (List.append_cancel_right
      (List.append_cancel_right hd))
    exact hm (List.append_cancel_left hd2)
  · intro heq
    have hd := hinjT heq
    simp only [Block.hashData, Block.hashCertificates] at hd
    have hd2 := List.append_cancel_right (List.append_cancel_right hd)
    have hd3 := List.append_cancel_left hd2
    exact ht (toHex_inj ht1 ht2 ht3 ht4 hd3)
  · intro heq
    have hd := hinjH heq
    simp only [Block.hashData, Block.hashCertificates] at hd
    have hd2 := List.append_cancel_right hd
    have hd3 := List.append_cancel_left hd2
    exact hh (toHex_inj hh1 hh2 hh3 hh4 hd3)
  · intro heq
    have hd := hinjS heq
    simp only [Block.hashData, Block.hashCertificates] at hd
    exact hs (List.append_cancel_left hd)

/-- Witness for C5 (amended): all hypotheses discharged at a concrete
block and concrete single-field mutations. -/
theorem calculateHash_field_dependence_witness :
    calculateHash { blockAddrOne with universityAddress := [2] } = calculateHash blockAddrOne ∧
    calculateHash { blockAddrOne with prevHash := [8] } ≠ calculateHash blockAddrOne ∧
    calculateHash { blockAddrOne with certificateHashes := [hexEncode (sha256 [65])] } ≠
      calculateHash blockAddrOne ∧
    calculateHash { blockAddrOne with merkleRoot := [202] } ≠ calculateHash blockAddrOne ∧
    calculateHash { blockAddrOne with timestamp := 6 } ≠ calculateHash blockAddrOne ∧
    calculateHash { blockAddrOne with height := 2 } ≠ calculateHash blockAddrOne ∧
    calculateHash { blockAddrOne with signature := [10] } ≠ calculateHash blockAddrOne :=
  calculateHash_field_dependence blockAddrOne [2] [8] [202] [10]
    [hexEncode (sha256 [65])] 6 2
    (by decide) (by decide) (by decide) (by decide) (by decide) (by decide)
    (by decide) (by decide) (by decide) (by decide) (by decide) (by decide)
    (by decide) (by decide) (by decide) (by decide) (by decide) (by decide)
    (by decide) (by decide) (by decide) (by decide)

/-! ## Claim C9 -/

/-- C9 counterexample: the claim says the pre-signature digest is computed
over all block fields except hash and signature; but these two blocks
differ in `universityAddress` (a field other than hash and signature) and
`CalculateHashForSigning` agrees on them — the signer identity is not part
of the pre-signature digest either. -/
theorem signing_digest_ignores_address :
    blockAddrTwo = { blockAddrOne with universityAddress := [2] } ∧
    blockAddrOne.universityAddress ≠ blockAddrTwo.universityAddress ∧
    calculateHashForSigning blockAddrOne = calculateHashForSigning blockAddrTwo := by decide

/-- C9 (amended): signature verification returns false when the signature
is absent or its byte length is odd; otherwise it returns the result of
curve verification of the split (r, s) against the recomputed
pre-signature digest — which covers prev_hash, credential hashes, merkle
root, timestamp and height, excluding hash, signature and signer
identity. -/
theorem blockVerify_spec (ecv : EcdsaVerify) (pk : PublicKey) (b : Block) :
    (b.signature = [] → blockVerify ecv pk b = false) ∧
    (b.signature.length % 2 = 1 → blockVerify ecv pk b = false) ∧
    (b.signature ≠ [] → b.signature.length % 2 = 0 →
      blockVerify ecv pk b = ecv pk (sha256 b.signingData)
        (bytesToNat (b.signature.take (b.signature.length / 2)))
        (bytesToNat (b.signature.drop (b.signature.length / 2)))) ∧
    (∀ a2, calculateHashForSigning { b with universityAddress := a2 } =
      calculateHashForSigning b) := by
  refine ⟨?_, ?_, ?_, fun _ => rfl⟩
  · intro h
    unfold blockVerify
    rw [if_pos (by rw [h]; rfl)]
  · intro h
    unfold blockVerify
    rw [if_neg (by omega), if_pos (by omega)]
  · intro h1 h2
    unfold blockVerify
    rw [if_neg (fun hc => h1 (List.length_eq_zero.mp hc)), if_neg (by omega)]
    rfl

/-- Witness for C9 (amended) on concrete blocks: an empty signature, an
odd-length signature, the even split, and address independence. -/
theorem blockVerify_spec_witness :
    blockVerify ecvTrue pkOne { blockAddrOne with signature := [] } = false ∧
    blockVerify ecvTrue pkOne blockAddrOne = false ∧
    blockVerify ecvTrue pkOne blockOneCert = ecvTrue pkOne (sha256 blockOneCert.signingData)
      (bytesToNat (blockOneCert.signature.take (blockOneCert.signature.length / 2)))
      (bytesToNat (blockOneCert.signature.drop (blockOneCert.signature.length / 2))) ∧
    calculateHashForSigning { blockOneCert with universityAddress := [] } =
      calculateHashForSigning blockOneCert :=
  ⟨(blockVerify_spec ecvTrue pkOne _).1 rfl,
   (blockVerify_spec ecvTrue pkOne blockAddrOne).2.1 (by decide),
   (blockVerify_spec ecvTrue pkOne blockOneCert).2.2.1 (by decide) (by decide),
   (blockVerify_spec ecvTrue pkOne blockOneCert).2.2.2 []⟩

/-! ## Claim C8 -/

theorem pairUpN_ne_nil {ns : List MNode} (h : ns ≠ []) : pairUpN ns ≠ [] := by
  match ns with
  | [] => exact absurd rfl h
  | [a] => simp [pairUpN]
  | a :: b :: rest => simp [pairUpN]

theorem buildLevels_ne_nil : ∀ (fuel : Nat) {ns : List MNode}, ns ≠ [] →
    buildLevels fuel ns ≠ []
  | 0, _, h => h
  | fuel+1, ns, h => by
    unfold buildLevels
    by_cases hl : ns.length ≤ 1
    · rw [if_pos hl]; exact h
    · rw [if_neg hl]; exact buildLevels_ne_nil fuel (pairUpN_ne_nil h)

theorem newMerkleTree_isSome {ids : List Bytes} (h : ids ≠ []) :
    ∃ n, newMerkleTree ids = some n := by
  cases ids with
  | nil => exact absurd rfl h
  | cons i rest =>
    have hpad : padDup (i :: rest) ≠ [] := by
      unfold padDup
      split
      · simp
      · simp
    have hleaves : (padDup (i :: rest)).map newMerkleLeaf ≠ [] := by
      simpa using hpad
    have hbl := buildLevels_ne_nil (padDup (i :: rest)).length hleaves
    match e : buildLevels (padDup (i :: rest)).length
        ((padDup (i :: rest)).map newMerkleLeaf) with
    | [] => exact absurd e hbl
    | x :: _ =>
      refine ⟨x, ?_⟩
      show (buildLevels ((padDup (i :: rest)).map newMerkleLeaf).length
        ((padDup (i :: rest)).map newMerkleLeaf)).head? = some x
      rw [List.length_map, e]
      rfl

theorem isAuthLoop_false {idsl : List (Bytes × UIdentity)} {pk : PublicKey} :
    ∀ {l : List (Bytes × Bytes)},
    (∀ p ∈ l, p.2 ≠ [] → ∃ idy, assocGet idsl p.2 = some idy ∧
      publicKeysEqual pk idy.pub = false) →
    isAuthLoop idsl pk l = some false
  | [], _ => rfl
  | (name, addr) :: rest, hwf => by
    unfold isAuthLoop
    by_cases ha : addr = []
    · rw [if_pos ha]
      exact isAuthLoop_false (fun p hp => hwf p (List.mem_cons_of_mem _ hp))
    · rw [if_neg ha]
      obtain ⟨idy, hidy, hne⟩ := hwf (name, addr) (List.mem_cons_self _ _) ha
      rw [hidy]
      simp only [hne]
      exact isAuthLoop_false (fun p hp => hwf p (List.mem_cons_of_mem _ hp))

/-- C8: `is_authorized` returns false for an uninitialized identity store,
for an empty allow-list, and for any public key that matches no
initialized entry (comparison by curve and both coordinates); and an
append whose signer the registry rejects aborts inside block construction
with the authorization error — `AddBlock` never reaches its persistence
step, so the input store is returned unchanged and its stats are
untouched. -/
theorem unauthorized_signer_rejected (regN regE regU regA : Registry)
    (pk : PublicKey) (idsl : List (Bytes × UIdentity)) (ecv : EcdsaVerify)
    (c : Chain) (ids : List Bytes) (now : Int) (signer : Signer) (tip : Block) :
    (regN.identities = none → isAuthorizedUniversity regN pk = some false) ∧
    (regE.authorized = [] → isAuthorizedUniversity regE pk = some false) ∧
    (regU.identities = some idsl →
      (∀ p ∈ regU.authorized, p.2 ≠ [] → ∃ idy, assocGet idsl p.2 = some idy ∧
        publicKeysEqual pk idy.pub = false) →
      isAuthorizedUniversity regU pk = some false) ∧
    (storeGet c.store c.lastHash = some tip → ids ≠ [] →
      isAuthorizedUniversity regA signer.pub = some false →
      addBlock ecv regA c ids now signer =
        .error (ChainErr.build BuildErr.unauthorized)) := by
  refine ⟨?_, ?_, ?_, ?_⟩
  · intro h
    unfold isAuthorizedUniversity
    rw [h]
  · intro h
    unfold isAuthorizedUniversity
    cases hid : regN.identities with
    | none => cases hid2 : regE.identities with
      | none => rfl
      | some l => rw [h]; rfl
    | some l => cases hid2 : regE.identities with
      | none => rfl
      | some l2 => rw [h]; rfl
  · intro h hwf
    unfold isAuthorizedUniversity
    rw [h]
    exact isAuthLoop_false hwf
  · intro htip hids hauth
    unfold addBlock
    rw [htip]
    obtain ⟨n, hn⟩ := newMerkleTree_isSome hids
    unfold newBlock
    rw [hn, hauth]

/-- Witness for C8: the rejection cases and the aborted append at concrete
registries, keys and a concrete one-block chain. -/
theorem unauthorized_signer_rejected_witness :
    isAuthorizedUniversity regNil pkTwo = some false ∧
    isAuthorizedUniversity regEmpty pkTwo = some false ∧
    isAuthorizedUniversity regOne pkTwo = some false ∧
    addBlock ecvTrue regOne chainOne [certA] 1500 signerTwo =
      .error (ChainErr.build BuildErr.unauthorized) := by
  have T := unauthorized_signer_rejected regNil regEmpty regOne regOne pkTwo
    [(addrOne, ⟨pkOne⟩)] ecvTrue chainOne [certA] 1500 signerTwo blockOneCert
  exact ⟨T.1 rfl, T.2.1 rfl, T.2.2.1 rfl (by decide),
    T.2.2.2 (by decide) (by decide) (T.2.2.1 rfl (by decide))⟩

/-! ## Claim C7 -/

theorem checkCerts_ok_lengths : ∀ {i : Nat} {l : List Bytes},
    checkCerts i l = .ok () → ∀ x ∈ l, x.length = 64 := by
  intro i l
  induction l generalizing i with
  | nil => intro _ x hx; cases hx
  | cons c rest ih =>
    intro h x hx
    unfold checkCerts at h
    by_cases hl : c.length ≠ 64
    · rw [if_pos hl] at h; cases h
    · rw [if_neg hl] at h
      cases hx with
      | head => omega
      | tail _ hx2 =>
        cases hdec : hexDecode c with
        | none => rw [hdec] at h; cases h
        | some d => rw [hdec] at h; exact ih h x hx2

theorem mem_hashCertificateIDs_length {ids : List Bytes} :
    ∀ x ∈ hashCertificateIDs ids, x.length = 64 := by
  intro x hx
  simp only [hashCertificateIDs, List.mem_map] at hx
  obtain ⟨id, _, rfl⟩ := hx
  rw [length_hexEncode, length_sha256]

/-- Everything `Validate` checks, extracted from a success. -/
theorem validate_ok_elim {b : Block} {now : Int} (h : validate b now = .ok ()) :
    b.hash = calculateHash b ∧ 0 ≤ b.height ∧ b.timestamp ≤ now + 3600 ∧
    checkCerts 0 b.certificateHashes = .ok () := by
  unfold validate at h
  by_cases g1 : b.hash ≠ calculateHash b
  · rw [if_pos g1] at h; cases h
  · rw [if_neg g1] at h
    by_cases g2 : b.height < 0
    · rw [if_pos g2] at h; cases h
    · rw [if_neg g2] at h
      by_cases g3 : b.timestamp > now + 3600
      · rw [if_pos g3] at h; cases h
      · rw [if_neg g3] at h
        push_neg at g1
        exact ⟨g1, by omega, by omega, h⟩

/-- C7: every block construction returns is accepted by `Validate` at any
clock within the skew window, and mutating exactly one of hash, prev_hash,
timestamp, credential list or signature on it makes `Validate` fail. The
mutated timestamp ranges over int64 (as in the Go struct), and each
non-hash mutation carries a hypothesis that SHA-256 does not collide on
the two pre-images it produces (discharged by computation in the
witness). -/
theorem validate_accepts_then_rejects_mutations {ecv : EcdsaVerify}
    {reg : Registry} {ids : List Bytes} {prevHash : Bytes} {height now : Int}
    {signer : Signer} {b : Block} (nowV : Int)
    (hb : newBlock ecv reg ids prevHash height now signer = .ok b)
    (hh : 0 ≤ height) (hnow : now ≤ nowV + 3600)
    (h2 p2 s2 : Bytes) (cs2 : List Bytes) (t2 : Int)
    (hhne : h2 ≠ b.hash)
    (hpne : p2 ≠ b.prevHash)
    (hinjP : sha256 (Block.hashData { b with prevHash := p2 }) = sha256 b.hashData →
      Block.hashData { b with prevHash := p2 } = b.hashData)
    (htne : t2 ≠ b.timestamp)
    (ht1 : -(2 ^ 63) ≤ t2) (ht2 : t2 < 2 ^ 63)
    (ht3 : -(2 ^ 63) ≤ now) (ht4 : now < 2 ^ 63)
    (hinjT : sha256 (Block.hashData { b with timestamp := t2 }) = sha256 b.hashData →
      Block.hashData { b with timestamp := t2 } = b.hashData)
    (hcne : cs2 ≠ b.certificateHashes)
    (hinjC : sha256 (Block.hashData { b with certificateHashes := cs2 }) = sha256 b.hashData →
      Block.hashData { b with certificateHashes := cs2 } = b.hashData)
    (hsne : s2 ≠ b.signature)
    (hinjS : sha256 (Block.hashData { b with signature := s2 }) = sha256 b.hashData →
      Block.hashData { b with signature := s2 } = b.hashData) :
    validate b nowV = .ok () ∧
    validate { b with hash := h2 } nowV ≠ .ok () ∧
    validate { b with prevHash := p2 } nowV ≠ .ok () ∧
    validate { b with timestamp := t2 } nowV ≠ .ok () ∧
    validate { b with certificateHashes := cs2 } nowV ≠ .ok () ∧
    validate { b with signature := s2 } nowV ≠ .ok () := by
  obtain ⟨hts, hph, hht, hcs, _, hhash, _, _⟩ := newBlock_ok_spec hb
  refine ⟨validate_newBlock nowV hb hh hnow, ?_, ?_, ?_, ?_, ?_⟩
  · intro hok
    obtain ⟨g1, -, -, -⟩ := validate_ok_elim hok
    have hch : calculateHash { b with hash := h2 } = calculateHash b := rfl
    rw [hch, ← hhash] at g1
    exact hhne g1
  · intro hok
    obtain ⟨g1, -, -, -⟩ := validate_ok_elim hok
    have hcH : calculateHash { b with prevHash := p2 } = calculateHash b := by
      rw [← g1, ← hhash]
    have hd := hinjP hcH
    simp only [Block.hashData, Block.hashCertificates] at hd
    exact hpne (List.append_cancel_right (List.append_cancel_right
      (List.append_cancel_right (List.append_cancel_right
      (List.append_cancel_right hd)))))
  · intro hok
    obtain ⟨g1, -, -, -⟩ := validate_ok_elim hok
    have hcH : calculateHash { b with timestamp := t2 } = calculateHash b := by
      rw [← g1, ← hhash]
    have hd := hinjT hcH
    simp only [Block.hashData, Block.hashCertificates] at hd
    have hd2 := List.append_cancel_left (List.append_cancel_right
      (List.append_cancel_right hd))
    rw [← hts] at ht3 ht4
    exact htne (toHex_inj ht1 ht2 ht3 ht4 hd2)
  · intro hok
    obtain ⟨g1, -, -, hcc⟩ := validate_ok_elim hok
    have hcH : calculateHash { b with certificateHashes := cs2 } = calculateHash b := by
      rw [← g1, ← hhash]
    have hd := hinjC hcH
    simp only [Block.hashData, Block.hashCertificates] at hd
    have hd2 := List.append_cancel_left (List.append_cancel_right
      (List.append_cancel_right (List.append_cancel_right
      (List.append_cancel_right hd))))
    have hlen2 : ∀ x ∈ cs2, x.length = 64 := checkCerts_ok_lengths hcc
    have hlen1 : ∀ x ∈ b.certificateHashes, x.length = 64 := by
      rw [hcs]; exact mem_hashCertificateIDs_length
    exact hcne (flatten64_inj hlen2 hlen1 hd2)
  · intro hok
    obtain ⟨g1, -, -, -⟩ := validate_ok_elim hok
    have hcH : calculateHash { b with signature := s2 } = calculateHash b := by
      rw [← g1, ← hhash]
    have hd := hinjS hcH
    simp only [Block.hashData, Block.hashCertificates] at hd
    exact hsne (List.append_cancel_left hd)

/-- Witness for C7: the concrete single-credential block accepted by
`Validate`, then rejected under each single-field mutation. -/
theorem validate_accepts_then_rejects_mutations_witness :
    validate blockOneCert 1000 = .ok () ∧
    validate { blockOneCert with hash := [1] } 1000 ≠ .ok () ∧
    validate { blockOneCert with prevHash := [1] } 1000 ≠ .ok () ∧
    validate { blockOneCert with timestamp := 1001 } 1000 ≠ .ok () ∧
    validate { blockOneCert with certificateHashes := [] } 1000 ≠ .ok () ∧
    validate { blockOneCert with signature := [9] } 1000 ≠ .ok () :=
  validate_accepts_then_rejects_mutations 1000
    (by decide : newBlock ecvTrue regOne [certA] [] 0 1000 signerOne = .ok blockOneCert)
    (by decide) (by decide)
    [1] [1] [9] [] 1001
    (by decide) (by decide) (by decide) (by decide) (by decide) (by decide)
    (by decide) (by decide) (by decide) (by decide) (by decide) (by decide)
    (by decide)

/-! ## Chain walk lemmas -/

theorem storeGet_cons {k h : Bytes} {nb : Block} {store : List (Bytes × Block)} :
    storeGet ((k, nb) :: store) h = if k = h then some nb else storeGet store h := by
  simp only [storeGet, assocGet, List.find?]
  by_cases hk : k = h
  · subst hk
    simp
  · simp only [if_neg hk]
    have : ((k, nb).1 == h) = false := by
      simp only [beq_eq_false_iff_ne]
      exact hk
    rw [this]

theorem storeGet_mem_keys {store : List (Bytes × Block)} {h : Bytes} {b : Block}
    (hg : storeGet store h = some b) : h ∈ store.map Prod.fst := by
  induction store with
  | nil => cases hg
  | cons p rest ih =>
    obtain ⟨k, nb⟩ := p
    rw [storeGet_cons] at hg
    by_cases hk : k = h
    · subst hk
      simp
    · rw [if_neg hk] at hg
      simp only [List.map_cons, List.mem_cons]
      exact Or.inr (ih hg)

theorem isBackWalk_fresh {store : List (Bytes × Block)} {k : Bytes} {nb : Block}
    (hfresh : k ∉ store.map Prod.fst) :
    ∀ {h : Bytes} {bs : List Block}, IsBackWalk store h bs →
      IsBackWalk ((k, nb) :: store) h bs := by
  intro h bs hw
  induction hw with
  | last h b hg hp =>
    refine IsBackWalk.last h b ?_ hp
    rw [storeGet_cons,
      if_neg (fun he => hfresh (by rw [he]; exact storeGet_mem_keys hg))]
    exact hg
  | step h b bs hg hp _ ih =>
    refine IsBackWalk.step h b bs ?_ hp ih
    rw [storeGet_cons,
      if_neg (fun he => hfresh (by rw [he]; exact storeGet_mem_keys hg))]
    exact hg

theorem collectBack_isBackWalk {store : List (Bytes × Block)} :
    ∀ {fuel : Nat} {h : Bytes} {bs : List Block},
      collectBack store h fuel = some bs → IsBackWalk store h bs := by
  intro fuel
  induction fuel with
  | zero => intro h bs hc; cases hc
  | succ n ih =>
    intro h bs hc
    unfold collectBack at hc
    cases hg : storeGet store h with
    | none => rw [hg] at hc; cases hc
    | some b =>
      rw [hg] at hc
      simp only [] at hc
      by_cases hp : b.prevHash = []
      · rw [if_pos hp] at hc
        injection hc with hc
        subst hc
        exact IsBackWalk.last h b hg hp
      · rw [if_neg hp] at hc
        cases hr : collectBack store b.prevHash n with
        | none => rw [hr] at hc; cases hc
        | some rest =>
          rw [hr] at hc
          injection hc with hc
          subst hc
          exact IsBackWalk.step h b rest hg hp (ih hr)

theorem isBackWalk_collectBack {store : List (Bytes × Block)} {h : Bytes}
    {bs : List Block} (hw : IsBackWalk store h bs) :
    ∀ {fuel : Nat}, bs.length ≤ fuel → collectBack store h fuel = some bs := by
  induction hw with
  | last h b hg hp =>
    intro fuel hf
    match fuel, hf with
    | n+1, _ =>
      unfold collectBack
      rw [hg]
      simp only []
      rw [if_pos hp]
  | step h b bs hg hp _ ih =>
    intro fuel hf
    match fuel, hf with
    | n+1, hf =>
      unfold collectBack
      rw [hg]
      simp only []
      rw [if_neg hp, ih (by simpa using hf)]
      rfl

theorem isBackWalk_det {store : List (Bytes × Block)} {h : Bytes}
    {bs1 : List Block} (h1 : IsBackWalk store h bs1) :
    ∀ {bs2 : List Block}, IsBackWalk store h bs2 → bs1 = bs2 := by
  induction h1 with
  | last h b hg hp =>
    intro bs2 h2
    cases h2 with
    | last _ b2 hg2 hp2 => rw [hg] at hg2; injection hg2 with he; rw [he]
    | step _ b2 bs hg2 hp2 _ =>
      rw [hg] at hg2
      injection hg2 with he
      subst he
      exact absurd hp hp2
  | step h b bs hg hp hw ih =>
    intro bs2 h2
    cases h2 with
    | last _ b2 hg2 hp2 =>
      rw [hg] at hg2
      injection hg2 with he
      subst he
      exact absurd hp2 hp
    | step _ b2 bs2r hg2 hp2 hw2 =>
      rw [hg] at hg2
      injection hg2 with he
      subst he
      rw [ih hw2]

theorem walkKeys_length : ∀ (bs : List Block) (h : Bytes),
    (walkKeys h bs).length = bs.length
  | [], _ => rfl
  | b :: bs, h => by
    show (h :: walkKeys b.prevHash bs).length = _
    simp [walkKeys_length bs b.prevHash]

theorem isBackWalk_mem_keys_drop {store : List (Bytes × Block)} {h0 : Bytes}
    {bs0 : List Block} (hw : IsBackWalk store h0 bs0) :
    ∀ k ∈ walkKeys h0 bs0, ∃ j, j < bs0.length ∧ IsBackWalk store k (bs0.drop j) := by
  induction hw with
  | last h b hg hp =>
    intro k hk
    simp only [walkKeys, List.mem_cons, List.not_mem_nil, or_false] at hk
    subst hk
    exact ⟨0, by simp, IsBackWalk.last k b hg hp⟩
  | step h b bs hg hp hw ih =>
    intro k hk
    simp only [walkKeys, List.mem_cons] at hk
    cases hk with
    | inl he =>
      subst he
      exact ⟨0, by simp, IsBackWalk.step k b bs hg hp hw⟩
    | inr hmem =>
      obtain ⟨j, hj, hwj⟩ := ih k hmem
      exact ⟨j + 1, by simpa using hj, by simpa using hwj⟩

theorem walkKeys_nodup {store : List (Bytes × Block)} :
    ∀ {h : Bytes} {bs : List Block}, IsBackWalk store h bs →
      (walkKeys h bs).Nodup := by
  intro h bs hw
  induction hw with
  | last h b _ _ => simp [walkKeys]
  | step h b bs hg hp hw ih =>
    show (h :: walkKeys b.prevHash bs).Nodup
    refine List.Nodup.cons ?_ ih
    intro hmem
    obtain ⟨j, hj, hwj⟩ := isBackWalk_mem_keys_drop hw h hmem
    have := isBackWalk_det (IsBackWalk.step h b bs hg hp hw) hwj
    have hlen := congrArg List.length this
    simp only [List.length_cons, List.length_drop] at hlen
    omega

theorem walkKeys_subset {store : List (Bytes × Block)} {h : Bytes}
    {bs : List Block} (hw : IsBackWalk store h bs) :
    ∀ k ∈ walkKeys h bs, k ∈ store.map Prod.fst := by
  induction hw with
  | last h b hg _ =>
    intro k hk
    simp only [walkKeys, List.mem_cons, List.not_mem_nil, or_false] at hk
    subst hk
    exact storeGet_mem_keys hg
  | step h b bs hg _ _ ih =>
    intro k hk
    simp only [walkKeys, List.mem_cons] at hk
    cases hk with
    | inl he => subst he; exact storeGet_mem_keys hg
    | inr hmem => exact ih k hmem

theorem isBackWalk_length_le {store : List (Bytes × Block)} {h : Bytes}
    {bs : List Block} (hw : IsBackWalk store h bs) : bs.length ≤ store.length := by
  have hnd := walkKeys_nodup hw
  have hsub := walkKeys_subset hw
  have h1 : (walkKeys h bs).toFinset.card = (walkKeys h bs).length :=
    List.toFinset_card_of_nodup hnd
  have h2 : (walkKeys h bs).toFinset ⊆ (store.map Prod.fst).toFinset := by
    intro x hx
    simp only [List.mem_toFinset] at hx ⊢
    exact hsub x hx
  have h3 := Finset.card_le_card h2
  have h4 := (store.map Prod.fst).toFinset_card_le
  rw [h1, walkKeys_length] at h3
  simp only [List.length_map] at h4
  omega

/-! ## The per-block validation loop -/

theorem validateRest_cons_elim {now : Int} {p b : Block} {i : Nat} {rest : List Block}
    (h : validateRest now p i (b :: rest) = .ok ()) :
    validate b now = .ok () ∧ b.height = (i : Int) ∧ b.prevHash = p.hash ∧
    p.timestamp ≤ b.timestamp ∧ validateRest now b (i + 1) rest = .ok () := by
  unfold validateRest at h
  cases hv : validate b now with
  | error e => rw [hv] at h; cases h
  | ok u =>
    cases u
    rw [hv] at h
    simp only [] at h
    by_cases g1 : b.height ≠ (i : Int)
    · rw [if_pos g1] at h; cases h
    · rw [if_neg g1] at h
      by_cases g2 : b.prevHash ≠ p.hash
      · rw [if_pos g2] at h; cases h
      · rw [if_neg g2] at h
        by_cases g3 : b.timestamp < p.timestamp
        · rw [if_pos g3] at h; cases h
        · rw [if_neg g3] at h
          push_neg at g1 g2
          exact ⟨rfl, g1, g2, by omega, h⟩

theorem validateRest_cons_intro {now : Int} {p b : Block} {i : Nat} {rest : List Block}
    (h1 : validate b now = .ok ()) (h2 : b.height = (i : Int))
    (h3 : b.prevHash = p.hash) (h4 : p.timestamp ≤ b.timestamp)
    (h5 : validateRest now b (i + 1) rest = .ok ()) :
    validateRest now p i (b :: rest) = .ok () := by
  unfold validateRest
  rw [h1]
  simp only []
  rw [if_neg (by omega), if_neg (by simp [h3]), if_neg (by omega)]
  exact h5

theorem validateRest_ok_iff (now : Int) : ∀ (l : List Block) (p : Block) (i : Nat),
    validateRest now p i l = .ok () ↔
    ∀ j, j < l.length →
      validate (l.getD j dfltBlock) now = .ok () ∧
      (l.getD j dfltBlock).height = ((i + j : Nat) : Int) ∧
      (l.getD j dfltBlock).prevHash = ((p :: l).getD j dfltBlock).hash ∧
      ((p :: l).getD j dfltBlock).timestamp ≤ (l.getD j dfltBlock).timestamp
  | [], p, i => by
    constructor
    · intro _ j hj; cases hj
    · intro _; rfl
  | b :: rest, p, i => by
    constructor
    · intro h
      obtain ⟨h1, h2, h3, h4, h5⟩ := validateRest_cons_elim h
      intro j hj
      cases j with
      | zero => exact ⟨by simpa using h1, by simpa using h2, by simpa using h3,
          by simpa using h4⟩
      | succ j =>
        have := ((validateRest_ok_iff now rest b (i + 1)).mp h5) j (by simpa using hj)
        simp only [List.getD_cons_succ]
        refine ⟨this.1, ?_, this.2.2.1, this.2.2.2⟩
        have he := this.2.1
        have : ((i + 1 + j : Nat) : Int) = ((i + (j + 1) : Nat) : Int) := by
          push_cast
          ring
        rw [← this]
        exact he
    · intro hall
      have h0 := hall 0 (by simp)
      simp only [List.getD_cons_zero] at h0
      refine validateRest_cons_intro h0.1 (by simpa using h0.2.1) h0.2.2.1 h0.2.2.2 ?_
      refine (validateRest_ok_iff now rest b (i + 1)).mpr ?_
      intro j hj
      have hthis := hall (j + 1) (by simpa using hj)
      simp only [List.getD_cons_succ] at hthis
      refine ⟨hthis.1, ?_, hthis.2.2.1, hthis.2.2.2⟩
      have hcast : ((i + (j + 1) : Nat) : Int) = ((i + 1 + j : Nat) : Int) := by
        push_cast
        ring
      rw [← hcast]
      exact hthis.2.1

theorem linkChecks_iff_validateRest {now : Int} {g : Block} {rest : List Block} :
    LinkChecks now (g :: rest) ↔ validateRest now g 1 rest = .ok () := by
  rw [validateRest_ok_iff]
  constructor
  · intro hlc j hj
    have hj2 : j + 1 < (g :: rest).length := by simpa using hj
    have := hlc (j + 1) (by omega) hj2
    simp only [List.getD_cons_succ, Nat.add_sub_cancel] at this
    refine ⟨this.1, ?_, this.2.2.1, this.2.2.2⟩
    have hc : ((1 + j : Nat) : Int) = ((j + 1 : Nat) : Int) := by push_cast; ring
    rw [hc]
    exact this.2.1
  · intro hvr i hi0 hil
    obtain ⟨j, rfl⟩ : ∃ j, i = j + 1 := ⟨i - 1, by omega⟩
    have := hvr j (by simpa using hil)
    simp only [List.getD_cons_succ, Nat.add_sub_cancel]
    refine ⟨this.1, ?_, this.2.2.1, this.2.2.2⟩
    have hc : ((1 + j : Nat) : Int) = ((j + 1 : Nat) : Int) := by push_cast; ring
    rw [← hc]
    exact this.2.1

theorem getLastD_eq_getLast {l : List Block} (h : l ≠ []) (d : Block) :
    l.getLastD d = l.getLast h := by
  rw [List.getLastD_eq_getLast?, List.getLast?_eq_getLast l h]
  rfl

theorem getLastD_cons_of_ne {a : Block} {l : List Block} (h : l ≠ []) (d : Block) :
    (a :: l).getLastD d = l.getLastD d := by
  cases l with
  | nil => exact absurd rfl h
  | cons b t => rfl

theorem getLastD_append_one (l : List Block) (a d : Block) :
    (l ++ [a]).getLastD d = a := by
  rw [List.getLastD_eq_getLast?, List.getLast?_concat]
  rfl

theorem headD_append_of_ne {l l2 : List Block} (h : l ≠ []) (d : Block) :
    (l ++ l2).headD d = l.headD d := by
  cases l with
  | nil => exact absurd rfl h
  | cons b t => rfl

/-- The C4 refinement: `ValidateChain` succeeds exactly when the
spec-level description holds. -/
theorem validateChain_ok_iff (c : Chain) (now : Int) :
    validateChain c now = .ok () ↔ ChainSpecOk c now := by
  have hblocks : ∀ (g : Block) (rest : List Block),
      validateBlocks c.lastHash now (g :: rest) = .ok () ↔
        (g.height = 0 ∧ g.prevHash = [] ∧ validate g now = .ok () ∧
         validateRest now g 1 rest = .ok () ∧
         c.lastHash = ((g :: rest).getLastD dfltBlock).hash) := by
    intro g rest
    constructor
    · intro h
      simp only [validateBlocks] at h
      by_cases g1 : g.height ≠ 0
      · rw [if_pos g1] at h; cases h
      · rw [if_neg g1] at h
        by_cases g2 : g.prevHash ≠ []
        · rw [if_pos g2] at h; cases h
        · rw [if_neg g2] at h
          cases hv : validate g now with
          | error e => rw [hv] at h; cases h
          | ok u =>
            cases u
            rw [hv] at h
            simp only [] at h
            cases hvr : validateRest now g 1 rest with
            | error e => rw [hvr] at h; cases h
            | ok u =>
              cases u
              rw [hvr] at h
              simp only [] at h
              by_cases g3 : c.lastHash ≠ ((g :: rest).getLastD dfltBlock).hash
              · rw [if_pos g3] at h; cases h
              · push_neg at g1 g2 g3
                exact ⟨g1, g2, rfl, rfl, g3⟩
    · intro ⟨h1, h2, h3, h4, h5⟩
      simp only [validateBlocks]
      rw [if_neg (by simp [h1]), if_neg (by simp [h2]), h3]
      simp only []
      rw [h4]
      simp only []
      rw [if_neg (by simp [h5])]
  constructor
  · intro h
    unfold validateChain at h
    by_cases hlh : c.lastHash = []
    · rw [if_pos hlh] at h; cases h
    · rw [if_neg hlh] at h
      cases hcb : collectBack c.store c.lastHash (c.store.length + 1) with
      | none => rw [hcb] at h; cases h
      | some bs =>
        rw [hcb] at h
        simp only [] at h
        cases hrev : bs.reverse with
        | nil => rw [hrev] at h; cases h
        | cons g rest =>
          rw [hrev] at h
          obtain ⟨g1, g2, hv, hvr, g3⟩ := (hblocks g rest).mp h
          refine ⟨hlh, bs, collectBack_isBackWalk hcb, ?_, ?_, ?_, ?_, ?_⟩
          · rw [hrev]; simpa using g1
          · rw [hrev]; simpa using g2
          · rw [hrev]; simpa using hv
          · rw [hrev]; exact linkChecks_iff_validateRest.mpr hvr
          · rw [hrev]; exact g3
  · intro hspec
    obtain ⟨hlh, bs, hw, hg1, hg2, hgv, hlc, htip⟩ := hspec
    unfold validateChain
    rw [if_neg hlh]
    have hlen := isBackWalk_length_le hw
    rw [isBackWalk_collectBack hw (by omega)]
    simp only []
    have hbs : bs ≠ [] := by
      cases hw with
      | last _ _ _ _ => simp
      | step _ _ _ _ _ _ => simp
    cases hrev : bs.reverse with
    | nil =>
      exfalso
      exact hbs (by simpa using congrArg List.reverse hrev)
    | cons g rest =>
      rw [hrev] at hg1 hg2 hgv hlc htip
      simp only [List.headD_cons] at hg1 hg2 hgv
      exact (hblocks g rest).mpr
        ⟨hg1, hg2, hgv, linkChecks_iff_validateRest.mp hlc, htip⟩

/-! ## Claim C4 -/

/-- C4: chain validation fails on an empty store, and otherwise returns ok
exactly when the spec-level description holds: a backward walk from the
tip through prev_hash links reaching a block with empty prev_hash, whose
reversal starts with a structurally valid genesis (height 0, empty
prev_hash, self-valid), every later position i self-valid with height i,
prev_hash linking to the previous block's hash and a non-decreasing
timestamp, and the stored tip pointer equal to the newest block's hash.
Failures carry the first violation as a structured error value. -/
theorem validateChain_spec (c : Chain) (now : Int) :
    (c.store = [] → ∃ e, validateChain c now = .error e) ∧
    (validateChain c now = .ok () ↔ ChainSpecOk c now) := by
  refine ⟨?_, validateChain_ok_iff c now⟩
  intro hs
  unfold validateChain
  by_cases hlh : c.lastHash = []
  · exact ⟨.emptyChain, by rw [if_pos hlh]⟩
  · refine ⟨.loadFailed, ?_⟩
    rw [if_neg hlh, hs]
    rfl

/-- Witness for C4: the empty chain fails, and the equivalence holds on a
concrete one-block chain. -/
theorem validateChain_spec_witness :
    (∃ e, validateChain ⟨[], []⟩ 0 = .error e) ∧
    (validateChain chainOne 2000 = .ok () ↔ ChainSpecOk chainOne 2000) :=
  ⟨(validateChain_spec ⟨[], []⟩ 0).1 rfl, (validateChain_spec chainOne 2000).2⟩

/-! ## Appending preserves chain validity -/

theorem getD_zero_headD (l : List Block) (d : Block) : l.getD 0 d = l.headD d := by
  cases l <;> rfl

theorem getLastD_eq_getD (l : List Block) (d : Block) :
    l.getLastD d = l.getD (l.length - 1) d := by
  rw [List.getLastD_eq_getLast?, List.getD_eq_getElem?_getD, List.getLast?_eq_getElem?]

theorem reverse_getLastD (l : List Block) (d : Block) :
    l.reverse.getLastD d = l.headD d := by
  rw [List.getLastD_eq_getLast?, List.getLast?_reverse, List.headD_eq_head?_getD]

theorem linkChecks_append_one {now : Int} {X : List Block} {a : Block} (hX : X ≠ []) :
    LinkChecks now (X ++ [a]) ↔
      (LinkChecks now X ∧ validate a now = .ok () ∧
       a.height = ((X.length : Nat) : Int) ∧
       a.prevHash = (X.getLastD dfltBlock).hash ∧
       (X.getLastD dfltBlock).timestamp ≤ a.timestamp) := by
  have hXlen : 1 ≤ X.length := by
    cases X with
    | nil => exact absurd rfl hX
    | cons _ _ => simp
  constructor
  · intro h
    have hbound := h X.length (by omega) (by simp)
    rw [List.getD_append_right X [a] dfltBlock X.length (by omega)] at hbound
    simp only [Nat.sub_self, List.getD_cons_zero] at hbound
    rw [List.getD_append X [a] dfltBlock (X.length - 1) (by omega)] at hbound
    rw [← getLastD_eq_getD] at hbound
    refine ⟨?_, hbound.1, hbound.2.1, hbound.2.2.1, hbound.2.2.2⟩
    intro i hi0 hil
    have := h i hi0 (by simp; omega)
    rw [List.getD_append X [a] dfltBlock i (by omega),
      List.getD_append X [a] dfltBlock (i - 1) (by omega)] at this
    exact this
  · intro ⟨hlc, hv, hh, hp, ht⟩ i hi0 hil
    simp only [List.length_append, List.length_cons, List.length_nil] at hil
    by_cases hi : i < X.length
    · rw [List.getD_append X [a] dfltBlock i hi,
        List.getD_append X [a] dfltBlock (i - 1) (by omega)]
      exact hlc i hi0 hi
    · have hieq : i = X.length := by omega
      subst hieq
      rw [List.getD_append_right X [a] dfltBlock X.length (by omega)]
      simp only [Nat.sub_self, List.getD_cons_zero]
      rw [List.getD_append X [a] dfltBlock (X.length - 1) (by omega),
        ← getLastD_eq_getD]
      exact ⟨hv, hh, hp, ht⟩

theorem linkChecks_getLastD_height {now : Int} {obs : List Block} (hobs : obs ≠ [])
    (hg : (obs.headD dfltBlock).height = 0) (hlc : LinkChecks now obs) :
    (obs.getLastD dfltBlock).height = ((obs.length - 1 : Nat) : Int) := by
  have hlen : 1 ≤ obs.length := by
    cases obs with
    | nil => exact absurd rfl hobs
    | cons _ _ => simp
  rw [getLastD_eq_getD]
  by_cases h1 : obs.length = 1
  · rw [h1]
    simp only [Nat.sub_self, Nat.cast_zero]
    rw [getD_zero_headD]
    exact hg
  · have := hlc (obs.length - 1) (by omega) (by omega)
    rw [this.2.1]

/-- The tip block read back from the store heads the walk, carries the
tip hash, and sits at height = chain length - 1. -/
theorem chainSpec_tip {c : Chain} {now : Int} {tip : Block}
    (hspec : ChainSpecOk c now)
    (htip : storeGet c.store c.lastHash = some tip) :
    ∃ bs, IsBackWalk c.store c.lastHash bs ∧ bs.headD dfltBlock = tip ∧
      c.lastHash = tip.hash ∧ tip.height = ((bs.length - 1 : Nat) : Int) ∧
      0 ≤ tip.height := by
  obtain ⟨hlh, bs, hw, hg1, hg2, hgv, hlc, htipOld⟩ := hspec
  have hhead : bs.headD dfltBlock = tip := by
    cases hw with
    | last h0 b0 hg hp =>
      rw [htip] at hg
      injection hg with he
      simp [he]
    | step h0 b0 bs0 hg hp hw0 =>
      rw [htip] at hg
      injection hg with he
      simp [he]
  have hbs : bs ≠ [] := by
    cases hw with
    | last _ _ _ _ => simp
    | step _ _ _ _ _ _ => simp
  have hrevne : bs.reverse ≠ [] := by
    intro hre
    exact hbs (by simpa using congrArg List.reverse hre)
  have hlast : bs.reverse.getLastD dfltBlock = tip := by
    rw [reverse_getLastD, hhead]
  have hheight : tip.height = ((bs.length - 1 : Nat) : Int) := by
    have := linkChecks_getLastD_height hrevne hg1 hlc
    rw [hlast] at this
    rw [this]
    simp
  refine ⟨bs, hw, hhead, ?_, hheight, by rw [hheight]; omega⟩
  rw [htipOld, hlast]

/-- Appending a fresh, linked, self-valid block on top of a spec-valid
chain keeps it spec-valid, with the walk extended by that block. -/
theorem chainSpecOk_snoc {c : Chain} {now : Int} {tip b : Block} {bs : List Block}
    (hspec : ChainSpecOk c now)
    (htip : storeGet c.store c.lastHash = some tip)
    (hw : IsBackWalk c.store c.lastHash bs)
    (hbp : b.prevHash = c.lastHash)
    (hbheight : b.height = tip.height + 1)
    (hbts : tip.timestamp ≤ b.timestamp)
    (hbv : validate b now = .ok ())
    (hfresh : b.hash ∉ c.store.map Prod.fst)
    (hbh : b.hash ≠ []) :
    ChainSpecOk ⟨b.hash, (b.hash, b) :: c.store⟩ now ∧
    IsBackWalk ((b.hash, b) :: c.store) b.hash (b :: bs) := by
  obtain ⟨bs2, hw2, hhead, hlhash, hheight, hpos⟩ := chainSpec_tip hspec htip
  obtain ⟨hlh, bs3, hw3, hg1, hg2, hgv, hlc, htipOld⟩ := hspec
  have e2 : bs2 = bs := isBackWalk_det hw2 hw
  have e3 : bs3 = bs := isBackWalk_det hw3 hw
  rw [e2] at hhead hheight
  rw [e3] at hg1 hg2 hgv hlc htipOld
  have hbs : bs ≠ [] := by
    cases hw with
    | last _ _ _ _ => simp
    | step _ _ _ _ _ _ => simp
  have hrevne : bs.reverse ≠ [] := by
    intro hre
    exact hbs (by simpa using congrArg List.reverse hre)
  have hwnew : IsBackWalk ((b.hash, b) :: c.store) b.hash (b :: bs) := by
    refine IsBackWalk.step b.hash b bs ?_ (by rw [hbp]; exact hlh) ?_
    · rw [storeGet_cons, if_pos rfl]
    · rw [hbp]
      exact isBackWalk_fresh hfresh hw
  refine ⟨⟨hbh, b :: bs, hwnew, ?_, ?_, ?_, ?_, ?_⟩, hwnew⟩
  · rw [List.reverse_cons, headD_append_of_ne hrevne]
    exact hg1
  · rw [List.reverse_cons, headD_append_of_ne hrevne]
    exact hg2
  · rw [List.reverse_cons, headD_append_of_ne hrevne]
    exact hgv
  · rw [List.reverse_cons]
    rw [linkChecks_append_one hrevne]
    have hlast : bs.reverse.getLastD dfltBlock = tip := by
      rw [reverse_getLastD, hhead]
    refine ⟨hlc, hbv, ?_, ?_, ?_⟩
    · rw [hbheight, hheight]
      have h1 : 1 ≤ bs.length := by
        cases bs with
        | nil => exact absurd rfl hbs
        | cons _ _ => simp
      simp only [List.length_reverse]
      omega
    · rw [hlast, hbp, hlhash]
    · rw [hlast]
      exact hbts
  · rw [List.reverse_cons, getLastD_append_one]

/-! ## Stats and appending -/

theorem statsGo_of_collectBack {store : List (Bytes × Block)} :
    ∀ {fuel : Nat} {h : Bytes} {bs : List Block},
      collectBack store h fuel = some bs → ∀ bc cc,
      statsGo store h fuel bc cc =
        some ⟨bc + bs.length, cc + (bs.map (fun x => x.certificateHashes.length)).sum⟩ := by
  intro fuel
  induction fuel with
  | zero => intro h bs hc; cases hc
  | succ n ih =>
    intro h bs hc bc cc
    unfold collectBack at hc
    unfold statsGo
    cases hg : storeGet store h with
    | none => rw [hg] at hc; cases hc
    | some b =>
      rw [hg] at hc
      simp only [] at hc
      simp only []
      by_cases hp : b.prevHash = []
      · rw [if_pos hp] at hc
        rw [if_pos hp]
        injection hc with hc
        subst hc
        simp
      · rw [if_neg hp] at hc
        rw [if_neg hp]
        cases hr : collectBack store b.prevHash n with
        | none => rw [hr] at hc; cases hc
        | some rest =>
          rw [hr] at hc
          injection hc with hc
          subst hc
          rw [ih hr]
          congr 1
          simp only [List.length_cons, List.map_cons, List.sum_cons]
          congr 1 <;> omega

theorem getStats_of_walk {c : Chain} {bs : List Block}
    (hw : IsBackWalk c.store c.lastHash bs) :
    getStats c = some ⟨bs.length, (bs.map (fun x => x.certificateHashes.length)).sum⟩ := by
  unfold getStats
  have hlen := isBackWalk_length_le hw
  have hcb : collectBack c.store c.lastHash (c.store.length + 1) = some bs :=
    isBackWalk_collectBack hw (by omega)
  have := statsGo_of_collectBack hcb 0 0
  simpa using this

/-- One successful, fresh, clock-consistent `AddBlock` on a valid chain:
the chain stays valid and the walk grows by the new block. -/
theorem addBlock_step {ecv : EcdsaVerify} {reg : Registry} {c : Chain}
    {ids : List Bytes} {now nowV : Int} {signer : Signer} {c2 : Chain}
    {b tip : Block} {bs : List Block}
    (hok : validateChain c nowV = .ok ())
    (htip : storeGet c.store c.lastHash = some tip)
    (hadd : addBlock ecv reg c ids now signer = .ok (c2, b))
    (hw : IsBackWalk c.store c.lastHash bs)
    (hts1 : tip.timestamp ≤ now) (hts2 : now ≤ nowV + 3600)
    (hfresh : b.hash ∉ c.store.map Prod.fst) :
    validateChain c2 nowV = .ok () ∧
    IsBackWalk c2.store c2.lastHash (b :: bs) := by
  have hspec := (validateChain_ok_iff c nowV).mp hok
  unfold addBlock at hadd
  rw [htip] at hadd
  simp only [] at hadd
  cases hnb : newBlock ecv reg ids c.lastHash (tip.height + 1) now signer with
  | error e => rw [hnb] at hadd; cases hadd
  | ok nb =>
    rw [hnb] at hadd
    simp only [] at hadd
    injection hadd with hadd
    injection hadd with hc2 hb
    subst hc2
    have hb2 := hb.symm
    subst hb2
    obtain ⟨hts, hph, hht, hcs, _, hhash, _, _⟩ := newBlock_ok_spec hnb
    obtain ⟨_, _, _, _, hheight, hpos⟩ := chainSpec_tip hspec htip
    have hbh : b.hash ≠ [] := by
      rw [hhash]
      exact sha256_ne_nil _
    have hbv : validate b nowV = .ok () :=
      validate_newBlock nowV hnb (by omega) (by omega)
    obtain ⟨hspec2, hw2⟩ := chainSpecOk_snoc hspec htip hw hph hht
      (by rw [hts]; exact hts1) hbv hfresh hbh
    exact ⟨(validateChain_ok_iff _ nowV).mpr hspec2, hw2⟩

/-- Induction along an `appendRun` whose side conditions hold: validity is
preserved and the walk grows one block per step. -/
theorem appendRun_aux {ecv : EcdsaVerify} {reg : Registry} {signer : Signer}
    {nowV : Int} : ∀ (steps : List (List Bytes × Int)) (c : Chain),
    validateChain c nowV = .ok () →
    runOk ecv reg signer nowV c steps = true →
    ∀ {c' : Chain}, appendRun ecv reg signer c steps = .ok c' →
    ∀ {bs : List Block}, IsBackWalk c.store c.lastHash bs →
    validateChain c' nowV = .ok () ∧
    ∃ bs', IsBackWalk c'.store c'.lastHash bs' ∧
      bs'.length = bs.length + steps.length
  | [], c, hok, _, c', happ, bs, hw => by
    unfold appendRun at happ
    injection happ with he
    subst he
    exact ⟨hok, bs, hw, by simp⟩
  | (ids, now) :: rest, c, hok, hrun, c', happ, bs, hw => by
    unfold runOk at hrun
    unfold appendRun at happ
    cases htip : storeGet c.store c.lastHash with
    | none => rw [htip] at hrun; cases hrun
    | some tip =>
      rw [htip] at hrun
      simp only [] at hrun
      cases hadd : addBlock ecv reg c ids now signer with
      | error e =>
        rw [hadd] at hrun
        simp at hrun
      | ok p =>
        obtain ⟨c2, b⟩ := p
        rw [hadd] at hrun happ
        simp only [] at hrun happ
        simp only [Bool.and_eq_true, decide_eq_true_eq] at hrun
        obtain ⟨⟨h1, h2⟩, h3, h4⟩ := hrun
        obtain ⟨hok2, hw2⟩ := addBlock_step hok htip hadd hw h1 h2 h3
        obtain ⟨hok3, bs', hw3, hlen⟩ := appendRun_aux rest c2 hok2 h4 happ hw2
        refine ⟨hok3, bs', hw3, ?_⟩
        rw [hlen]
        simp only [List.length_cons]
        omega

/-! ## Claim C3 -/

/-- C3: a successful append on a chain whose tip block is stored under the
tip pointer (and carries that hash) returns a block at `tip.height + 1`
linking to the tip's hash, persists it under its own hash, and advances
the tip pointer to it; and N side-condition-respecting appends starting
from a one-block genesis chain yield a chain with block_count N+1 on which
validation succeeds. The side conditions (`runOk`) are what the Go runtime
guarantees: tips readable, clocks non-decreasing and within skew of the
validation clock, and no stored-key collision with the new block hash. -/
theorem append_advances_and_validates (ecv : EcdsaVerify) (reg : Registry)
    (signer : Signer) :
    (∀ (c : Chain) (ids : List Bytes) (now : Int) (tip : Block) (c2 : Chain)
      (b : Block),
      storeGet c.store c.lastHash = some tip →
      tip.hash = c.lastHash →
      addBlock ecv reg c ids now signer = .ok (c2, b) →
      b.height = tip.height + 1 ∧ b.prevHash = tip.hash ∧
      storeGet c2.store b.hash = some b ∧ c2.lastHash = b.hash) ∧
    (∀ (g : Block) (steps : List (List Bytes × Int)) (nowV : Int) (c' : Chain),
      g.prevHash = [] →
      validateChain ⟨g.hash, [(g.hash, g)]⟩ nowV = .ok () →
      runOk ecv reg signer nowV ⟨g.hash, [(g.hash, g)]⟩ steps = true →
      appendRun ecv reg signer ⟨g.hash, [(g.hash, g)]⟩ steps = .ok c' →
      validateChain c' nowV = .ok () ∧
      ∃ s, getStats c' = some s ∧ s.blockCount = steps.length + 1) := by
  constructor
  · intro c ids now tip c2 b htip hth hadd
    unfold addBlock at hadd
    rw [htip] at hadd
    simp only [] at hadd
    cases hnb : newBlock ecv reg ids c.lastHash (tip.height + 1) now signer with
    | error e => rw [hnb] at hadd; cases hadd
    | ok nb =>
      rw [hnb] at hadd
      simp only [] at hadd
      injection hadd with hadd
      injection hadd with hc2 hb
      subst hc2
      have hb2 := hb.symm
      subst hb2
      obtain ⟨_, hph, hht, _, _, _, _, _⟩ := newBlock_ok_spec hnb
      refine ⟨hht, by rw [hph, hth], ?_, rfl⟩
      rw [storeGet_cons, if_pos rfl]
  · intro g steps nowV c' hgp hok hrun happ
    have hw : IsBackWalk [(g.hash, g)] g.hash [g] := by
      refine IsBackWalk.last g.hash g ?_ hgp
      rw [storeGet_cons, if_pos rfl]
    obtain ⟨hok', bs', hw', hlen⟩ := appendRun_aux steps ⟨g.hash, [(g.hash, g)]⟩
      hok hrun happ hw
    refine ⟨hok', ⟨bs'.length, _⟩, getStats_of_walk hw', ?_⟩
    show bs'.length = steps.length + 1
    simp only [List.length_cons, List.length_nil] at hlen
    omega

/-- Witness for C3: one concrete append on the concrete one-block chain;
the block gains height 1, links to the genesis hash, is stored under its
own hash, the tip advances; block count 2, chain still valid. -/
theorem append_advances_and_validates_witness :
    (blockStep1.height = blockOneCert.height + 1 ∧
     blockStep1.prevHash = blockOneCert.hash ∧
     storeGet chainTwo.store blockStep1.hash = some blockStep1 ∧
     chainTwo.lastHash = blockStep1.hash) ∧
    (validateChain chainTwo 2000 = .ok () ∧
     ∃ s, getStats chainTwo = some s ∧ s.blockCount = 2) := by
  have T := append_advances_and_validates ecvTrue regOne signerOne
  refine ⟨T.1 chainOne [certB] 1500 blockOneCert chainTwo blockStep1
    (by decide) (by decide) (by decide), ?_⟩
  exact T.2 blockOneCert [([certB], 1500)] 2000 chainTwo (by decide) (by decide)
    (by decide) (by decide)

/-! ## Claim C10 -/

theorem validate_ok_intro {b : Block} {now : Int}
    (h1 : b.hash = calculateHash b) (h2 : 0 ≤ b.height)
    (h3 : b.timestamp ≤ now + 3600)
    (h4 : checkCerts 0 b.certificateHashes = .ok ()) :
    validate b now = .ok () := by
  unfold validate
  rw [if_neg (by simp [h1]), if_neg (by omega), if_neg (by omega)]
  exact h4

theorem isBackWalk_cons_inv {store : List (Bytes × Block)} {h : Bytes}
    {b : Block} {bs : List Block} (hw : IsBackWalk store h (b :: bs)) :
    storeGet store h = some b ∧
    ((bs = [] ∧ b.prevHash = []) ∨
     (b.prevHash ≠ [] ∧ IsBackWalk store b.prevHash bs)) := by
  cases hw with
  | last _ _ hg hp => exact ⟨hg, Or.inl ⟨rfl, hp⟩⟩
  | step _ _ _ hg hp hw0 => exact ⟨hg, Or.inr ⟨hp, hw0⟩⟩

/-- C10: neither `Validate` nor `ValidateChain` performs signature
verification. Replacing a valid block's signature with any byte string and
recomputing its hash yields a block `Validate` still accepts; rewriting
the tip block of a valid chain this way (stored under the rewritten hash,
tip pointer updated) yields a chain `ValidateChain` still accepts — no
check depends on whether the signature verifies under any key. The
freshness hypothesis says only that the rewritten hash is not already a
store key. -/
theorem validation_ignores_signatures (b : Block) (now : Int) (s : Bytes)
    (c : Chain) (tip : Block)
    (hb : validate b now = .ok ())
    (hc : validateChain c now = .ok ())
    (htip : storeGet c.store c.lastHash = some tip)
    (hfresh : (resignBlock tip s).hash ∉ c.store.map Prod.fst) :
    validate (resignBlock b s) now = .ok () ∧
    validateChain ⟨(resignBlock tip s).hash,
      ((resignBlock tip s).hash, resignBlock tip s) :: c.store⟩ now = .ok () := by
  have hresign : ∀ (x : Block), validate x now = .ok () →
      validate (resignBlock x s) now = .ok () := by
    intro x hx
    obtain ⟨_, g2, g3, g4⟩ := validate_ok_elim hx
    exact validate_ok_intro rfl g2 g3 g4
  refine ⟨hresign b hb, ?_⟩
  have hspec := (validateChain_ok_iff c now).mp hc
  obtain ⟨bs, hw, hhead, hlhash, hheight, hpos⟩ := chainSpec_tip hspec htip
  obtain ⟨hlh, bs3, hw3, hg1, hg2, hgv, hlc, htipOld⟩ := hspec
  have e3 : bs3 = bs := isBackWalk_det hw3 hw
  rw [e3] at hg1 hg2 hgv hlc htipOld
  cases bs with
  | nil => cases hw
  | cons b0 bs0 =>
    have hb0 : b0 = tip := by simpa using hhead
    rw [hb0] at hw hg1 hg2 hgv hlc htipOld
    have hth : (resignBlock tip s).hash ≠ [] := by
      show calculateHash { tip with signature := s } ≠ []
      unfold calculateHash
      exact sha256_ne_nil _
    have hvt : validate tip now = .ok () := by
      cases bs0 with
      | nil => simpa using hgv
      | cons x xs =>
        have hrevne : (tip :: x :: xs).reverse ≠ [] := by simp
        have hxne : (x :: xs).reverse ≠ [] := by simp
        rw [List.reverse_cons] at hlc
        exact ((linkChecks_append_one (a := tip) hxne).mp hlc).2.1
    rw [validateChain_ok_iff]
    obtain ⟨hg, hcase⟩ := isBackWalk_cons_inv hw
    rcases hcase with ⟨hbs0, hp⟩ | ⟨hp, hw0⟩
    · subst hbs0
      refine ⟨hth, [resignBlock tip s], ?_, ?_, ?_, ?_, ?_, ?_⟩
      · refine IsBackWalk.last _ _ ?_ ?_
        · rw [storeGet_cons, if_pos rfl]
        · show tip.prevHash = []
          exact hp
      · show tip.height = 0
        simpa using hg1
      · show tip.prevHash = []
        exact hp
      · show validate (resignBlock tip s) now = .ok ()
        exact hresign tip hvt
      · intro i hi0 hil
        simp only [List.reverse_cons, List.reverse_nil, List.nil_append,
          List.length_cons, List.length_nil] at hil
        exact absurd hi0 (by omega)
      · rfl
    · have hbs0 : bs0 ≠ [] := by
        cases hw0 with
        | last _ _ _ _ => simp
        | step _ _ _ _ _ _ => simp
      have hrevne : bs0.reverse ≠ [] := by
        intro hre
        exact hbs0 (by simpa using congrArg List.reverse hre)
      rw [List.reverse_cons] at hg1 hg2 hgv hlc htipOld
      rw [headD_append_of_ne hrevne] at hg1 hg2 hgv
      refine ⟨hth, resignBlock tip s :: bs0, ?_, ?_, ?_, ?_, ?_, ?_⟩
      · refine IsBackWalk.step _ _ _ ?_ ?_ ?_
        · rw [storeGet_cons, if_pos rfl]
        · show tip.prevHash ≠ []
          exact hp
        · show IsBackWalk _ tip.prevHash bs0
          exact isBackWalk_fresh hfresh hw0
      · rw [List.reverse_cons, headD_append_of_ne hrevne]
        exact hg1
      · rw [List.reverse_cons, headD_append_of_ne hrevne]
        exact hg2
      · rw [List.reverse_cons, headD_append_of_ne hrevne]
        exact hgv
      · rw [List.reverse_cons, linkChecks_append_one hrevne]
        have hold := (linkChecks_append_one (a := tip) hrevne).mp hlc
        exact ⟨hold.1, hresign tip hvt, hold.2.2.1, hold.2.2.2.1, hold.2.2.2.2⟩
      · rw [List.reverse_cons, getLastD_append_one]

/-- Witness for C10: a concrete signature replacement on the concrete
one-block chain's tip. -/
theorem validation_ignores_signatures_witness :
    validate (resignBlock blockOneCert [7, 7]) 2000 = .ok () ∧
    validateChain ⟨(resignBlock blockOneCert [7, 7]).hash,
      ((resignBlock blockOneCert [7, 7]).hash, resignBlock blockOneCert [7, 7]) ::
        chainOne.store⟩ 2000 = .ok () :=
  validation_ignores_signatures blockOneCert 2000 [7, 7] chainOne blockOneCert
    (by decide) (by decide) (by decide) (by decide)
